import Mathlib

/-!
# Merkle tree engine (`pkg/merkletree/merkle_tree.go`)

A shallow embedding of the Go package `merkletree` and a verification of its
specification.  The package is embedded at two levels.

* The value level (`hashPair`, `BuildTree`, `CreateMerkleProof`,
  `VerifyMerkleProof`): a `[]byte` is the list of its bytes.
* The level of the backing arrays (`Heap.hashPair`, `Heap.BuildTree`,
  `Heap.CreateMerkleProof`, `Heap.VerifyMerkleProof`): a `[]byte` is a slice
  header into a memory of arrays, and `append(left, right...)` stores into the
  spare capacity of `left` when there is room.

The two levels agree on slices without spare capacity
(`BuildTree_tight_heap`, `VerifyMerkleProof_tight_heap`), and
`CreateMerkleProof`, which only reads, agrees with `Heap.CreateMerkleProof` on
every memory (`CreateMerkleProof_value_heap`).  Where the levels differ, the
level of the backing arrays is what the code does.

Modelling conventions.

* At the value level the nil slice and the empty slice are both `[]` (the code
  only ever compares slices with `bytes.Equal`, which does not tell them
  apart).
* A Go `*Node` is a value of the inductive type `Node`: `Node.nil` is the nil
  pointer and `Node.mk h l r` points to a struct with fields `Hash`, `Left`,
  `Right`.  Nodes are never mutated after `newNode`, so a pointer shared by
  two parents is the same as two copies of the pointed-to value.
* A run-time panic (nil dereference, index out of range) is the `error` side
  of `Except GoPanic`; a function that cannot panic returns a plain value.
* At the value level `append(left, right...)` in `hashPair` is the
  concatenation of its operands, which is the slice `append` returns; the
  store it may make into the backing array of `left` is in `Heap.goAppend`.
* `sha256.Sum256` belongs to the Go standard library; it is a parameter
  `Sum256 : Bytes → Bytes` of every definition that hashes.
* The package-level variable `Trees` is passed explicitly: registry operations
  take the current slice and return the new one.
-/

set_option linter.unusedVariables false

namespace Merkletree

/-- A Go byte slice. -/
abbrev Bytes := List (Fin 256)

/-- The type `uuid.UUID`, a 16-byte array compared with `==`, read as a
128-bit number. -/
abbrev UUID := Fin (2 ^ 128)

/-- Run-time panics the package can raise. -/
inductive GoPanic where
  | nilDereference
  | indexOutOfRange
  deriving DecidableEq, Repr

/-- A value of Go type `*Node`. -/
inductive Node where
  | nil : Node
  | mk (Hash : Bytes) (Left : Node) (Right : Node) : Node
  deriving DecidableEq, Repr

/-- The struct `MerkleTree`. -/
structure MerkleTree where
  ID : UUID
  Root : Node
  deriving DecidableEq, Repr

/-- The struct `ProofSibling`. -/
structure ProofSibling where
  Hash : Bytes
  IsLeft : Bool
  deriving DecidableEq, Repr

/-- The type `MerkleProof`. -/
abbrev MerkleProof := List ProofSibling

/-- The test `node == nil`. -/
def Node.isNil : Node → Bool
  | .nil => true
  | .mk _ _ _ => false

/-- The field read `node.Hash`; panics on the nil pointer. -/
def Node.Hash : Node → Except GoPanic Bytes
  | .nil => .error .nilDereference
  | .mk h _ _ => .ok h

/-- The function `newNode`. -/
def newNode (hash : Bytes) (left : Node) (right : Node) : Node :=
  Node.mk hash left right

/-- The function `hashPair` at the value level: the digest of `left` followed
by `right`, the bytes of the slice the function returns.  The store `append`
makes when `left` has spare capacity is in `Heap.hashPair`. -/
def hashPair (Sum256 : Bytes → Bytes) (left right : Bytes) : Bytes :=
  let pair := left ++ right
  Sum256 pair

/-- The odd-length padding of `BuildTree`, lines 43-45: the last node of the
level is appended once more. -/
def padLevel (currentLevel : List Node) : Except GoPanic (List Node) :=
  if currentLevel.length % 2 ≠ 0 then
    match currentLevel[currentLevel.length - 1]? with
    | none => .error .indexOutOfRange
    | some last => .ok (currentLevel ++ [last])
  else
    .ok currentLevel

/-- The inner loop of `BuildTree`, lines 47-54: adjacent nodes are paired
left to right; the result is `nextLevel`. -/
def pairLevel (Sum256 : Bytes → Bytes) : List Node → Except GoPanic (List Node)
  | [] => .ok []
  | [_] => .error .indexOutOfRange
  | left :: right :: rest =>
    match left.Hash with
    | .error e => .error e
    | .ok lh =>
      match right.Hash with
      | .error e => .error e
      | .ok rh =>
        match pairLevel Sum256 rest with
        | .error e => .error e
        | .ok more => .ok (newNode (hashPair Sum256 lh rh) left right :: more)

theorem pairLevel_length (Sum256 : Bytes → Bytes) :
    ∀ (level next : List Node), pairLevel Sum256 level = .ok next →
      2 * next.length = level.length
  | [], next, h => by
    simp only [pairLevel, Except.ok.injEq] at h
    subst h
    rfl
  | [_], next, h => by simp [pairLevel] at h
  | left :: right :: rest, next, h => by
    simp only [pairLevel] at h
    split at h
    · simp at h
    · split at h
      · simp at h
      · split at h
        · simp at h
        · rename_i more hmore
          simp only [Except.ok.injEq] at h
          subst h
          have := pairLevel_length Sum256 rest more hmore
          simp only [List.length_cons]
          omega

theorem padLevel_length (level padded : List Node) (h : padLevel level = .ok padded) :
    padded.length ≤ level.length + 1 := by
  unfold padLevel at h
  split at h
  · split at h
    · simp at h
    · simp only [Except.ok.injEq] at h
      subst h
      simp
  · simp only [Except.ok.injEq] at h
    subst h
    omega

/-- The outer loop of `BuildTree`, lines 39-57: levels are padded and paired
until at most one node is left. -/
def buildLoop (Sum256 : Bytes → Bytes) (currentLevel : List Node) :
    Except GoPanic (List Node) :=
  if 1 < currentLevel.length then
    match hpad : padLevel currentLevel with
    | .error e => .error e
    | .ok padded =>
      match hpair : pairLevel Sum256 padded with
      | .error e => .error e
      | .ok nextLevel => buildLoop Sum256 nextLevel
  else
    .ok currentLevel
termination_by currentLevel.length
decreasing_by
  have h1 := padLevel_length _ _ hpad
  have h2 := pairLevel_length Sum256 _ _ hpair
  omega

/-- The function `BuildTree` at the value level; `Heap.BuildTree` has the
backing arrays of the leaf hashes. -/
def BuildTree (Sum256 : Bytes → Bytes) (hashes : List Bytes) : Except GoPanic Node :=
  let currentLevel := hashes.map (fun hash => newNode hash Node.nil Node.nil)
  match buildLoop Sum256 currentLevel with
  | .error e => .error e
  | .ok level =>
    match level[0]? with
    | none => .error .indexOutOfRange
    | some root => .ok root

/-- The function `AddTree`; the argument `Trees` is the package variable before
the call and the result is the package variable after it. -/
def AddTree (Trees : List MerkleTree) (newTree : MerkleTree) : List MerkleTree :=
  Trees ++ [newTree]

/-- The function `GetTree`; `none` is the nil pointer, `some tree` a pointer to
a copy of the entry. -/
def GetTree : List MerkleTree → UUID → Option MerkleTree
  | [], _ => none
  | tree :: rest, treeID =>
    if tree.ID = treeID then some tree else GetTree rest treeID

/-- The loop of `UpdateTree`, lines 76-81: `some` is the slice after the
assignment `Trees[i] = newTree` followed by `return`, `none` means the loop
ended without a match. -/
def updateLoop : List MerkleTree → MerkleTree → Option (List MerkleTree)
  | [], _ => none
  | tree :: rest, newTree =>
    if tree.ID = newTree.ID then some (newTree :: rest)
    else
      match updateLoop rest newTree with
      | none => none
      | some rest1 => some (tree :: rest1)

/-- The function `UpdateTree`. -/
def UpdateTree (Trees : List MerkleTree) (newTree : MerkleTree) : List MerkleTree :=
  match updateLoop Trees newTree with
  | some Trees1 => Trees1
  | none => AddTree Trees newTree

/-- The text of the error `CreateMerkleProof` makes with `fmt.Errorf`. -/
def hashNotFound : String := "hash not found in the Merkle tree"

/-- The closure `findHash` of `CreateMerkleProof`, lines 90-120.  The captured
variable `proof` is threaded through: the second argument is its value before
the call, the second component of the result its value after. -/
def findHash (hash : Bytes) : Node → MerkleProof → Except GoPanic (Bool × MerkleProof)
  | .nil, proof => .ok (false, proof)
  | .mk nodeHash left right, proof =>
    if left.isNil && right.isNil then
      .ok (decide (nodeHash = hash), proof)
    else
      match findHash hash left proof with
      | .error e => .error e
      | .ok (leftContainsHash, proof1) =>
        if leftContainsHash then
          match right.Hash with
          | .error e => .error e
          | .ok rightHash => .ok (true, proof1 ++ [ProofSibling.mk rightHash false])
        else
          match findHash hash right proof1 with
          | .error e => .error e
          | .ok (rightContainsHash, proof2) =>
            if rightContainsHash then
              match left.Hash with
              | .error e => .error e
              | .ok leftHash => .ok (true, proof2 ++ [ProofSibling.mk leftHash true])
            else
              .ok (false, proof2)

/-- The function `CreateMerkleProof`.  The Go result pair `(MerkleProof, error)`
is a pair whose second component is `none` for a nil error and `some msg` for
the error made by `fmt.Errorf`. -/
def CreateMerkleProof (root : Node) (hash : Bytes) :
    Except GoPanic (MerkleProof × Option String) :=
  match findHash hash root [] with
  | .error e => .error e
  | .ok (hashFound, proof) =>
    if !hashFound then
      .ok ([], some hashNotFound)
    else
      .ok (proof, none)

/-- One iteration of the loop of `VerifyMerkleProof`, lines 133-137: the new
value of `currentHash`. -/
def verifyStep (Sum256 : Bytes → Bytes) (currentHash : Bytes) (sibling : ProofSibling) :
    Bytes :=
  if sibling.IsLeft then
    hashPair Sum256 sibling.Hash currentHash
  else
    hashPair Sum256 currentHash sibling.Hash

/-- The function `VerifyMerkleProof` at the value level: the loop over `proof`
updates `currentHash`, which is then compared with `rootHash` by
`bytes.Equal`.  `Heap.VerifyMerkleProof` has the backing arrays of its
arguments. -/
def VerifyMerkleProof (Sum256 : Bytes → Bytes) (rootHash : Bytes) (hash : Bytes)
    (proof : MerkleProof) : Bool :=
  let currentHash := proof.foldl (verifyStep Sum256) hash
  decide (currentHash = rootHash)

/-! ## Observations used in the statements -/

/-- The hashes of the leaves under a node, left to right.  A leaf is a node
whose `Left` and `Right` are both nil, the test `findHash` makes. -/
def leafHashes : Node → List Bytes
  | .nil => []
  | .mk nodeHash left right =>
    if left.isNil && right.isNil then [nodeHash]
    else leafHashes left ++ leafHashes right

/-- The leaf hashes under the nodes of a level, left to right. -/
def levelLeaves : List Node → List Bytes
  | [] => []
  | t :: rest => leafHashes t ++ levelLeaves rest

/-- The number of edges on the longest path from a node down to a leaf. -/
def height : Node → Nat
  | .nil => 0
  | .mk _ left right =>
    if left.isNil && right.isNil then 0
    else 1 + max (height left) (height right)

/-- A perfect hash tree of depth `k`: a leaf for `k = 0`, otherwise a node
over two perfect trees of depth `k - 1` whose hash is `hashPair` of the
hashes of its children. -/
inductive Perfect (Sum256 : Bytes → Bytes) : Nat → Node → Prop where
  | leaf (h : Bytes) : Perfect Sum256 0 (Node.mk h Node.nil Node.nil)
  | node {k : Nat} {l r : Node} {lh rh : Bytes} :
      Perfect Sum256 k l → Perfect Sum256 k r →
      l.Hash = .ok lh → r.Hash = .ok rh →
      Perfect Sum256 (k + 1) (Node.mk (hashPair Sum256 lh rh) l r)

/-- The replay of a proof as the specification words it: an empty proof
compares the current hash with the expected root; a step whose sibling is on
the left combines the sibling first, any other step combines it second, and
the rest of the proof is replayed from the combined hash. -/
def verifyReplay (Sum256 : Bytes → Bytes) (r : Bytes) : Bytes → MerkleProof → Bool
  | h, [] => decide (h = r)
  | h, s :: rest =>
    if s.IsLeft = true then verifyReplay Sum256 r (hashPair Sum256 s.Hash h) rest
    else verifyReplay Sum256 r (hashPair Sum256 h s.Hash) rest

/-- A stand-in for the digest in concrete evaluations: it returns its input.
The theorems hold for every digest, so for this one too. -/
def sampleDigest : Bytes → Bytes := fun pair => pair

/-- A call of one of the two functions that write the package variable
`Trees`. -/
inductive RegistryCall where
  | add (newTree : MerkleTree)
  | update (newTree : MerkleTree)
  deriving DecidableEq, Repr

/-- The value of `Trees` after a call. -/
def RegistryCall.run (Trees : List MerkleTree) : RegistryCall → List MerkleTree
  | .add newTree => AddTree Trees newTree
  | .update newTree => UpdateTree Trees newTree

/-- The value of `Trees` after a sequence of calls, made in order. -/
def runCalls : List MerkleTree → List RegistryCall → List MerkleTree
  | Trees, [] => Trees
  | Trees, call :: rest => runCalls (call.run Trees) rest

/-- Every `AddTree` of the sequence is made when no entry of the registry has
the id of the tree it adds. -/
def freshAdds : List MerkleTree → List RegistryCall → Bool
  | _, [] => true
  | Trees, call :: rest =>
    (match call with
      | .add newTree => decide (GetTree Trees newTree.ID = none)
      | .update _ => true) && freshAdds (call.run Trees) rest

/-- The hash stored at a node, for use in statements; the nil pointer, which
stores none, is given the empty hash. -/
def storedHash : Node → Bytes
  | .nil => []
  | .mk nodeHash _ _ => nodeHash

/-- The position of the first element of a sequence that equals `t`, counted
from 0; the length of the sequence when no element does. -/
def firstIndex (t : Bytes) : List Bytes → Nat
  | [] => 0
  | x :: rest => if x = t then 0 else firstIndex t rest + 1

/-- The sibling path of the leaf at position `i` (from the left, counted from
0) under a node, listed from the level of the leaf up to the node.  Where the
path goes down into the left child the step carries the hash of the right
child with `IsLeft = false`; where it goes down into the right child the step
carries the hash of the left child with `IsLeft = true`. -/
def pathOfLeaf : Node → Nat → MerkleProof
  | .nil, _ => []
  | .mk _ left right, i =>
    if left.isNil && right.isNil then []
    else if i < (leafHashes left).length then
      pathOfLeaf left i ++ [ProofSibling.mk (storedHash right) false]
    else
      pathOfLeaf right (i - (leafHashes left).length) ++
        [ProofSibling.mk (storedHash left) true]

/-- The nodes of a tree: the node pointed to and the nodes under its two
children; the nil pointer has none. -/
def subnodes : Node → List Node
  | .nil => []
  | .mk nodeHash left right =>
    Node.mk nodeHash left right :: (subnodes left ++ subnodes right)

/-- One pass of the duplication rule on a sequence of hashes read as blocks of
`b` hashes: when the number of blocks is odd, the last block, the last `b`
hashes, is appended once more. -/
def padTail (b : Nat) (s : List Bytes) : List Bytes :=
  if (s.length / b) % 2 ≠ 0 then s ++ s.drop (s.length - b) else s

/-- The passes of the duplication rule from block size `b` on, the block size
doubling from one pass to the next, until the sequence is one block; `passes`
bounds their number. -/
def fillLevels : Nat → Nat → List Bytes → List Bytes
  | 0, _, s => s
  | passes + 1, b, s =>
    if b < s.length then fillLevels passes (2 * b) (padTail b s) else s

/-- The leaf sequence the duplication rule makes of the input `hs`: for the
block sizes 1, 2, 4, ... in turn, while the sequence is longer than one block,
a sequence of an odd number of blocks gets its last block appended once more.
There are fewer passes than hashes in `hs`. -/
def paddedLeaves (hs : List Bytes) : List Bytes :=
  fillLevels hs.length 1 hs

/-! ## The same functions with the backing arrays of the slices

The definitions above give every `[]byte` as its bytes.  That is what the
code computes as long as no slice handed to `append` as first operand has
spare capacity.  The definitions of `Heap` keep the slice headers and the
backing arrays, so that the write `append(left, right...)` makes into the
spare capacity of `left` is there. -/

namespace Heap

/-- A Go slice header: the number of the backing array, the offset of the
first element in it, the length and the capacity. -/
structure Slice where
  arr : Nat
  off : Nat
  len : Nat
  cap : Nat
  deriving DecidableEq, Repr

/-- The backing arrays in memory, by number. -/
abbrev Memory := List Bytes

/-- The bytes a slice holds in a memory. -/
def read (m : Memory) (s : Slice) : Bytes :=
  ((m.getD s.arr []).drop s.off).take s.len

/-- The memory after `data` is stored into array `arr` from position `pos`
on. -/
def write (m : Memory) (arr pos : Nat) (data : Bytes) : Memory :=
  match m[arr]? with
  | none => m
  | some a => m.set arr (a.take pos ++ data ++ a.drop (pos + data.length))

/-- The builtin `append(left, right...)`: when the capacity of `left` has room
for the bytes of `right` they are stored behind `left` in its backing array and
the result shares that array; otherwise the result is a new array holding
both.  The capacity of a new array is left at its length: `hashPair` drops the
slice after hashing it. -/
def goAppend (m : Memory) (left right : Slice) : Slice × Memory :=
  let data := read m right
  if left.len + right.len ≤ left.cap then
    (Slice.mk left.arr left.off (left.len + right.len) left.cap,
      write m left.arr (left.off + left.len) data)
  else
    (Slice.mk m.length 0 (left.len + right.len) (left.len + right.len),
      m ++ [read m left ++ data])

/-- The function `hashPair`, lines 151-155: `pair` is made by `append`, the
digest of its bytes is stored in a new array and the slice `hash[:]` of the
whole of it is returned. -/
def hashPair (Sum256 : Bytes → Bytes) (m : Memory) (left right : Slice) :
    Slice × Memory :=
  let pair := goAppend m left right
  let hash := Sum256 (read pair.2 pair.1)
  (Slice.mk pair.2.length 0 hash.length hash.length, pair.2 ++ [hash])

/-- A value of Go type `*Node`, its `Hash` a slice header. -/
inductive Node where
  | nil : Node
  | mk (Hash : Slice) (Left : Node) (Right : Node) : Node
  deriving DecidableEq, Repr

/-- The struct `ProofSibling`, its `Hash` a slice header. -/
structure ProofSibling where
  Hash : Slice
  IsLeft : Bool
  deriving DecidableEq, Repr

/-- The type `MerkleProof`. -/
abbrev MerkleProof := List ProofSibling

/-- The test `node == nil`. -/
def Node.isNil : Node → Bool
  | .nil => true
  | .mk _ _ _ => false

/-- The field read `node.Hash`; panics on the nil pointer. -/
def Node.Hash : Node → Except GoPanic Slice
  | .nil => .error .nilDereference
  | .mk h _ _ => .ok h

/-- The function `newNode`. -/
def newNode (hash : Slice) (left : Node) (right : Node) : Node :=
  Node.mk hash left right

/-- The odd-length padding of `BuildTree`, lines 43-45. -/
def padLevel (currentLevel : List Node) : Except GoPanic (List Node) :=
  if currentLevel.length % 2 ≠ 0 then
    match currentLevel[currentLevel.length - 1]? with
    | none => .error .indexOutOfRange
    | some last => .ok (currentLevel ++ [last])
  else
    .ok currentLevel

/-- The inner loop of `BuildTree`, lines 47-54; the memory goes from one call
of `hashPair` to the next. -/
def pairLevel (Sum256 : Bytes → Bytes) :
    Memory → List Node → Except GoPanic (List Node × Memory)
  | m, [] => .ok ([], m)
  | _, [_] => .error .indexOutOfRange
  | m, left :: right :: rest =>
    match left.Hash with
    | .error e => .error e
    | .ok lh =>
      match right.Hash with
      | .error e => .error e
      | .ok rh =>
        match pairLevel Sum256 (hashPair Sum256 m lh rh).2 rest with
        | .error e => .error e
        | .ok more =>
          .ok (newNode (hashPair Sum256 m lh rh).1 left right :: more.1, more.2)

theorem pairLevel_length_heap (Sum256 : Bytes → Bytes) :
    ∀ (level : List Node) (m : Memory) (next : List Node × Memory),
      pairLevel Sum256 m level = .ok next → 2 * next.1.length = level.length
  | [], m, next, h => by
    simp only [pairLevel, Except.ok.injEq] at h
    subst h
    rfl
  | [_], m, next, h => by simp [pairLevel] at h
  | left :: right :: rest, m, next, h => by
    simp only [pairLevel] at h
    split at h
    · simp at h
    · split at h
      · simp at h
      · split at h
        · simp at h
        · rename_i more hmore
          simp only [Except.ok.injEq] at h
          subst h
          have := pairLevel_length_heap Sum256 rest _ more hmore
          simp only [List.length_cons]
          omega

theorem padLevel_length_heap (level padded : List Node)
    (h : padLevel level = .ok padded) : padded.length ≤ level.length + 1 := by
  unfold padLevel at h
  split at h
  · split at h
    · simp at h
    · simp only [Except.ok.injEq] at h
      subst h
      simp
  · simp only [Except.ok.injEq] at h
    subst h
    omega

/-- The outer loop of `BuildTree`, lines 39-57. -/
def buildLoop (Sum256 : Bytes → Bytes) (m : Memory) (currentLevel : List Node) :
    Except GoPanic (List Node × Memory) :=
  if 1 < currentLevel.length then
    match hpad : padLevel currentLevel with
    | .error e => .error e
    | .ok padded =>
      match hpair : pairLevel Sum256 m padded with
      | .error e => .error e
      | .ok next => buildLoop Sum256 next.2 next.1
  else
    .ok (currentLevel, m)
termination_by currentLevel.length
decreasing_by
  have h1 := padLevel_length_heap _ _ hpad
  have h2 := pairLevel_length_heap Sum256 _ _ _ hpair
  omega

/-- The function `BuildTree`: the root and the memory after the call. -/
def BuildTree (Sum256 : Bytes → Bytes) (m : Memory) (hashes : List Slice) :
    Except GoPanic (Node × Memory) :=
  let currentLevel := hashes.map (fun hash => newNode hash Node.nil Node.nil)
  match buildLoop Sum256 m currentLevel with
  | .error e => .error e
  | .ok level =>
    match level.1[0]? with
    | none => .error .indexOutOfRange
    | some root => .ok (root, level.2)

/-- The closure `findHash` of `CreateMerkleProof`, lines 90-120; it reads the
memory and does not change it. -/
def findHash (m : Memory) (hash : Slice) :
    Node → MerkleProof → Except GoPanic (Bool × MerkleProof)
  | .nil, proof => .ok (false, proof)
  | .mk nodeHash left right, proof =>
    if left.isNil && right.isNil then
      .ok (decide (read m nodeHash = read m hash), proof)
    else
      match findHash m hash left proof with
      | .error e => .error e
      | .ok (leftContainsHash, proof1) =>
        if leftContainsHash then
          match right.Hash with
          | .error e => .error e
          | .ok rightHash => .ok (true, proof1 ++ [ProofSibling.mk rightHash false])
        else
          match findHash m hash right proof1 with
          | .error e => .error e
          | .ok (rightContainsHash, proof2) =>
            if rightContainsHash then
              match left.Hash with
              | .error e => .error e
              | .ok leftHash => .ok (true, proof2 ++ [ProofSibling.mk leftHash true])
            else
              .ok (false, proof2)

/-- The function `CreateMerkleProof`. -/
def CreateMerkleProof (m : Memory) (root : Node) (hash : Slice) :
    Except GoPanic (MerkleProof × Option String) :=
  match findHash m hash root [] with
  | .error e => .error e
  | .ok (hashFound, proof) =>
    if !hashFound then
      .ok ([], some hashNotFound)
    else
      .ok (proof, none)

/-- One iteration of the loop of `VerifyMerkleProof`, lines 133-137: the new
value of `currentHash` and the memory after the call of `hashPair`. -/
def verifyStep (Sum256 : Bytes → Bytes) (state : Slice × Memory)
    (sibling : ProofSibling) : Slice × Memory :=
  if sibling.IsLeft then
    hashPair Sum256 state.2 sibling.Hash state.1
  else
    hashPair Sum256 state.2 state.1 sibling.Hash

/-- The function `VerifyMerkleProof`: the boolean it returns and the memory
after the call.  `bytes.Equal` reads `rootHash` in the memory the loop
leaves. -/
def VerifyMerkleProof (Sum256 : Bytes → Bytes) (m : Memory) (rootHash : Slice)
    (hash : Slice) (proof : MerkleProof) : Bool × Memory :=
  let final := proof.foldl (verifyStep Sum256) (hash, m)
  (decide (read final.2 final.1 = read final.2 rootHash), final.2)

/-- The tree a memory gives: every slice header replaced by the bytes it
holds. -/
def Node.value (m : Memory) : Node → Merkletree.Node
  | .nil => Merkletree.Node.nil
  | .mk nodeHash left right =>
    Merkletree.Node.mk (read m nodeHash) (Node.value m left) (Node.value m right)

/-- The proof step a memory gives: the slice header replaced by the bytes it
holds. -/
def ProofSibling.value (m : Memory) (s : ProofSibling) : Merkletree.ProofSibling :=
  Merkletree.ProofSibling.mk (read m s.Hash) s.IsLeft

/-- A slice without spare capacity whose backing array is in the memory. -/
def Slice.tight (m : Memory) (s : Slice) : Prop :=
  s.arr < m.length ∧ s.cap = s.len

/-- Every slice header of the tree has its backing array in the memory. -/
def Node.within (m : Memory) : Node → Prop
  | .nil => True
  | .mk nodeHash left right =>
    nodeHash.arr < m.length ∧ Node.within m left ∧ Node.within m right

/-- A node that is not nil, whose own hash has no spare capacity and whose
slices all have their backing arrays in the memory. -/
def Node.sound (m : Memory) : Node → Prop
  | .nil => False
  | .mk nodeHash left right =>
    nodeHash.tight m ∧ Node.within m left ∧ Node.within m right

end Heap

/-! ## The loops of `BuildTree` -/

theorem buildLoop_done (Sum256 : Bytes → Bytes) (level : List Node)
    (h : level.length ≤ 1) : buildLoop Sum256 level = .ok level := by
  rw [buildLoop]
  simp [Nat.not_lt.mpr h]

theorem buildLoop_step (Sum256 : Bytes → Bytes) (level padded next : List Node)
    (h : 1 < level.length) (hpad : padLevel level = .ok padded)
    (hpair : pairLevel Sum256 padded = .ok next) :
    buildLoop Sum256 level = buildLoop Sum256 next := by
  rw [buildLoop]
  simp only [h, if_true]
  split
  · rename_i e he
    rw [hpad] at he
    cases he
  · rename_i p hp
    rw [hpad] at hp
    cases hp
    split
    · rename_i e he
      rw [hpair] at he
      cases he
    · rename_i n hn
      rw [hpair] at hn
      cases hn
      rfl

theorem perfect_hash (Sum256 : Bytes → Bytes) {k : Nat} {t : Node}
    (h : Perfect Sum256 k t) : ∃ b l r, t = Node.mk b l r := by
  cases h with
  | leaf b => exact ⟨b, _, _, rfl⟩
  | node _ _ _ _ => exact ⟨_, _, _, rfl⟩

theorem perfect_isNil (Sum256 : Bytes → Bytes) {k : Nat} {t : Node}
    (h : Perfect Sum256 k t) : t.isNil = false := by
  obtain ⟨b, l, r, rfl⟩ := perfect_hash Sum256 h
  rfl

theorem perfect_height (Sum256 : Bytes → Bytes) {k : Nat} {t : Node}
    (h : Perfect Sum256 k t) : height t = k := by
  induction h with
  | leaf b => simp [height, Node.isNil]
  | node hl hr _ _ ihl ihr =>
    simp [height, perfect_isNil Sum256 hl, ihl, ihr]
    omega

theorem pairLevel_perfect (Sum256 : Bytes → Bytes) (k : Nat) :
    ∀ (level : List Node), (∀ t ∈ level, Perfect Sum256 k t) → level.length % 2 = 0 →
      ∃ next, pairLevel Sum256 level = .ok next ∧
        (∀ t ∈ next, Perfect Sum256 (k + 1) t) ∧
        levelLeaves next = levelLeaves level ∧
        2 * next.length = level.length
  | [], _, _ => ⟨[], rfl, by simp, rfl, rfl⟩
  | [_], _, hlen => by simp at hlen
  | left :: right :: rest, hall, hlen => by
    have hl : Perfect Sum256 k left := hall left (by simp)
    have hr : Perfect Sum256 k right := hall right (by simp)
    have hrest : ∀ t ∈ rest, Perfect Sum256 k t := fun t ht => hall t (by simp [ht])
    have hlen2 : rest.length % 2 = 0 := by
      simp only [List.length_cons] at hlen
      omega
    obtain ⟨more, hmore, hperf, hleaves, hcount⟩ :=
      pairLevel_perfect Sum256 k rest hrest hlen2
    obtain ⟨lb, ll, lr, rfl⟩ := perfect_hash Sum256 hl
    obtain ⟨rb, rl, rr, rfl⟩ := perfect_hash Sum256 hr
    refine ⟨newNode (hashPair Sum256 lb rb) (Node.mk lb ll lr) (Node.mk rb rl rr) :: more,
      ?_, ?_, ?_, ?_⟩
    · simp [pairLevel, Node.Hash, hmore]
    · intro t ht
      rcases List.mem_cons.mp ht with rfl | ht
      · exact Perfect.node hl hr rfl rfl
      · exact hperf t ht
    · simp [levelLeaves, newNode, leafHashes, Node.isNil, hleaves]
    · simp only [List.length_cons]
      omega

theorem levelLeaves_append (a b : List Node) :
    levelLeaves (a ++ b) = levelLeaves a ++ levelLeaves b := by
  induction a with
  | nil => rfl
  | cons t rest ih => simp [levelLeaves, ih]

theorem levelLeaves_mem (level : List Node) (t : Node) (ht : t ∈ level) :
    ∀ x ∈ leafHashes t, x ∈ levelLeaves level := by
  induction level with
  | nil => simp at ht
  | cons u rest ih =>
    intro x hx
    rcases List.mem_cons.mp ht with rfl | ht
    · simp [levelLeaves, hx]
    · simp [levelLeaves, ih ht x hx]

theorem padLevel_perfect (Sum256 : Bytes → Bytes) (k : Nat) (level : List Node)
    (hall : ∀ t ∈ level, Perfect Sum256 k t) :
    ∃ padded, padLevel level = .ok padded ∧
      (∀ t ∈ padded, Perfect Sum256 k t) ∧
      (∀ x, x ∈ levelLeaves padded ↔ x ∈ levelLeaves level) ∧
      padded.length = level.length + level.length % 2 := by
  by_cases hodd : level.length % 2 = 0
  · exact ⟨level, by simp [padLevel, hodd], hall, fun _ => Iff.rfl, by omega⟩
  · have hpos : level.length - 1 < level.length := by omega
    refine ⟨level ++ [level[level.length - 1]], ?_, ?_, ?_, ?_⟩
    · simp [padLevel, hodd, List.getElem?_eq_getElem hpos]
    · intro t ht
      rcases List.mem_append.mp ht with ht | ht
      · exact hall t ht
      · simp only [List.mem_singleton] at ht
        subst ht
        exact hall _ (List.getElem_mem _)
    · intro x
      rw [levelLeaves_append]
      simp only [List.mem_append, levelLeaves, List.append_nil]
      constructor
      · rintro (hx | hx)
        · exact hx
        · exact levelLeaves_mem level _ (List.getElem_mem _) x hx
      · exact fun hx => Or.inl hx
    · simp only [List.length_append, List.length_singleton]
      omega

theorem buildLoop_perfect (Sum256 : Bytes → Bytes) :
    ∀ (n : Nat) (level : List Node) (k : Nat), level.length = n → level ≠ [] →
      (∀ t ∈ level, Perfect Sum256 k t) →
      ∃ root, buildLoop Sum256 level = .ok [root] ∧
        Perfect Sum256 (k + Nat.clog 2 level.length) root ∧
        (∀ x, x ∈ leafHashes root ↔ x ∈ levelLeaves level) := by
  intro n
  induction n using Nat.strong_induction_on with
  | _ n ih =>
    intro level k hn hne hall
    have hpos : 0 < level.length := List.length_pos.mpr hne
    by_cases hone : level.length ≤ 1
    · obtain ⟨root, rfl⟩ : ∃ root, level = [root] := by
        match level, hne, hone with
        | [t], _, _ => exact ⟨t, rfl⟩
        | _ :: _ :: _, _, h => simp at h
      refine ⟨root, buildLoop_done Sum256 _ hone, ?_, ?_⟩
      · simpa using hall root (by simp)
      · intro x
        simp [levelLeaves]
    · have hgt : 1 < level.length := by omega
      obtain ⟨padded, hpad, hpadall, hpadleaves, hpadlen⟩ :=
        padLevel_perfect Sum256 k level hall
      have heven : padded.length % 2 = 0 := by omega
      obtain ⟨next, hpair, hnextall, hnextleaves, hnextlen⟩ :=
        pairLevel_perfect Sum256 k padded hpadall heven
      have hlt : next.length < n := by omega
      have hnextne : next ≠ [] := by
        intro h
        rw [h] at hnextlen
        simp at hnextlen
        omega
      obtain ⟨root, hroot, hperf, hleaves⟩ :=
        ih next.length hlt next (k + 1) rfl hnextne hnextall
      refine ⟨root, ?_, ?_, ?_⟩
      · rw [buildLoop_step Sum256 level padded next hgt hpad hpair]
        exact hroot
      · have hclog : Nat.clog 2 level.length = Nat.clog 2 next.length + 1 := by
          rw [Nat.clog_of_two_le (by decide) hgt]
          congr 2
          omega
        rw [hclog]
        have : k + (Nat.clog 2 next.length + 1) = k + 1 + Nat.clog 2 next.length := by
          omega
        rw [this]
        exact hperf
      · intro x
        rw [hleaves x, hnextleaves]
        exact hpadleaves x

theorem levelLeaves_newLeaves (hashes : List Bytes) :
    levelLeaves (hashes.map (fun hash => newNode hash Node.nil Node.nil)) = hashes := by
  induction hashes with
  | nil => rfl
  | cons h rest ih =>
    simp only [List.map_cons, levelLeaves, ih]
    simp [leafHashes, newNode, Node.isNil]

theorem BuildTree_perfect (Sum256 : Bytes → Bytes) (hashes : List Bytes)
    (hne : hashes ≠ []) :
    ∃ root, BuildTree Sum256 hashes = .ok root ∧
      Perfect Sum256 (Nat.clog 2 hashes.length) root ∧
      (∀ x, x ∈ leafHashes root ↔ x ∈ hashes) := by
  have hall : ∀ t ∈ hashes.map (fun hash => newNode hash Node.nil Node.nil),
      Perfect Sum256 0 t := by
    intro t ht
    obtain ⟨h, _, rfl⟩ := List.mem_map.mp ht
    exact Perfect.leaf h
  have hne2 : hashes.map (fun hash => newNode hash Node.nil Node.nil) ≠ [] := by
    simpa using hne
  obtain ⟨root, hroot, hperf, hleaves⟩ :=
    buildLoop_perfect Sum256 _ _ 0 rfl hne2 hall
  refine ⟨root, ?_, ?_, ?_⟩
  · simp [BuildTree, hroot]
  · simpa using hperf
  · intro x
    rw [hleaves x, levelLeaves_newLeaves]

/-! ## `findHash` on the trees `BuildTree` makes -/

theorem findHash_perfect (Sum256 : Bytes → Bytes) (hash : Bytes) {k : Nat} {t : Node}
    (hp : Perfect Sum256 k t) :
    ∀ proof : MerkleProof, ∃ steps : MerkleProof,
      findHash hash t proof = .ok (decide (hash ∈ leafHashes t), proof ++ steps) ∧
      steps.length = (if hash ∈ leafHashes t then k else 0) ∧
      (hash ∈ leafHashes t →
        t.Hash = .ok (steps.foldl (verifyStep Sum256) hash)) := by
  induction hp with
  | leaf b =>
    intro proof
    refine ⟨[], ?_, ?_, ?_⟩
    · simp only [findHash, Node.isNil, Bool.and_self, if_true, leafHashes,
        List.mem_singleton, List.append_nil]
      by_cases hb : b = hash
      · simp [hb]
      · have hb2 : ¬ hash = b := fun h => hb h.symm
        simp [hb, hb2]
    · simp
    · intro hmem
      simp only [leafHashes, Node.isNil, Bool.and_self, if_true, List.mem_singleton] at hmem
      simp [Node.Hash, hmem]
  | node hl hr hlh hrh ihl ihr =>
    rename_i k l r lh rh
    intro proof
    have hnil : l.isNil = false := perfect_isNil Sum256 hl
    obtain ⟨sl, hfl, hlenl, hvl⟩ := ihl proof
    by_cases hinl : hash ∈ leafHashes l
    · refine ⟨sl ++ [ProofSibling.mk rh false], ?_, ?_, ?_⟩
      · simp [findHash, hnil, hfl, hinl, hrh, leafHashes]
      · simp [leafHashes, hnil, hinl, hlenl]
      · intro _
        have h1 := hvl hinl
        rw [hlh] at h1
        simp only [Except.ok.injEq] at h1
        simp [Node.Hash, List.foldl_append, verifyStep, ← h1]
    · obtain ⟨sr, hfr, hlenr, hvr⟩ := ihr (proof ++ sl)
      have hsl : sl = [] := by
        simp only [hinl, if_false] at hlenl
        exact List.length_eq_zero.mp hlenl
      subst hsl
      by_cases hinr : hash ∈ leafHashes r
      · refine ⟨sr ++ [ProofSibling.mk lh true], ?_, ?_, ?_⟩
        · simp only [List.append_nil] at hfr
          simp [findHash, hnil, hfl, hinl, hfr, hinr, hlh, leafHashes]
        · simp [leafHashes, hnil, hinr, hlenr]
        · intro _
          have h1 := hvr hinr
          rw [hrh] at h1
          simp only [Except.ok.injEq] at h1
          simp [Node.Hash, List.foldl_append, verifyStep, ← h1]
      · refine ⟨[], ?_, ?_, ?_⟩
        · have hsr : sr = [] := by
            simp only [hinr, if_false] at hlenr
            exact List.length_eq_zero.mp hlenr
          subst hsr
          simp only [List.append_nil] at hfr
          simp [findHash, hnil, hfl, hinl, hfr, hinr, leafHashes]
        · simp [leafHashes, hnil, hinl, hinr]
        · intro hmem
          simp [leafHashes, hnil, hinl, hinr] at hmem

/-! ## Small inputs -/

theorem buildTree_empty_eq (Sum256 : Bytes → Bytes) :
    BuildTree Sum256 [] = .error GoPanic.indexOutOfRange := by
  simp [BuildTree, buildLoop_done]

theorem BuildTree_one (Sum256 : Bytes → Bytes) (h : Bytes) :
    BuildTree Sum256 [h] = .ok (Node.mk h Node.nil Node.nil) := by
  simp [BuildTree, buildLoop_done, newNode]

theorem BuildTree_two (Sum256 : Bytes → Bytes) (h1 h2 : Bytes) :
    BuildTree Sum256 [h1, h2] =
      .ok (Node.mk (hashPair Sum256 h1 h2)
        (Node.mk h1 Node.nil Node.nil) (Node.mk h2 Node.nil Node.nil)) := by
  have hstep := buildLoop_step Sum256
    [Node.mk h1 Node.nil Node.nil, Node.mk h2 Node.nil Node.nil]
    [Node.mk h1 Node.nil Node.nil, Node.mk h2 Node.nil Node.nil]
    [Node.mk (hashPair Sum256 h1 h2)
      (Node.mk h1 Node.nil Node.nil) (Node.mk h2 Node.nil Node.nil)]
    (by simp) (by simp [padLevel]) (by simp [pairLevel, Node.Hash, newNode])
  simp [BuildTree, newNode, hstep, buildLoop_done]

theorem BuildTree_three (Sum256 : Bytes → Bytes) (h1 h2 h3 : Bytes) :
    BuildTree Sum256 [h1, h2, h3] =
      .ok (Node.mk (hashPair Sum256 (hashPair Sum256 h1 h2) (hashPair Sum256 h3 h3))
        (Node.mk (hashPair Sum256 h1 h2)
          (Node.mk h1 Node.nil Node.nil) (Node.mk h2 Node.nil Node.nil))
        (Node.mk (hashPair Sum256 h3 h3)
          (Node.mk h3 Node.nil Node.nil) (Node.mk h3 Node.nil Node.nil))) := by
  have hstep1 := buildLoop_step Sum256
    [Node.mk h1 Node.nil Node.nil, Node.mk h2 Node.nil Node.nil,
      Node.mk h3 Node.nil Node.nil]
    [Node.mk h1 Node.nil Node.nil, Node.mk h2 Node.nil Node.nil,
      Node.mk h3 Node.nil Node.nil, Node.mk h3 Node.nil Node.nil]
    [Node.mk (hashPair Sum256 h1 h2)
        (Node.mk h1 Node.nil Node.nil) (Node.mk h2 Node.nil Node.nil),
      Node.mk (hashPair Sum256 h3 h3)
        (Node.mk h3 Node.nil Node.nil) (Node.mk h3 Node.nil Node.nil)]
    (by simp) (by simp [padLevel]) (by simp [pairLevel, Node.Hash, newNode])
  have hstep2 := buildLoop_step Sum256
    [Node.mk (hashPair Sum256 h1 h2)
        (Node.mk h1 Node.nil Node.nil) (Node.mk h2 Node.nil Node.nil),
      Node.mk (hashPair Sum256 h3 h3)
        (Node.mk h3 Node.nil Node.nil) (Node.mk h3 Node.nil Node.nil)]
    [Node.mk (hashPair Sum256 h1 h2)
        (Node.mk h1 Node.nil Node.nil) (Node.mk h2 Node.nil Node.nil),
      Node.mk (hashPair Sum256 h3 h3)
        (Node.mk h3 Node.nil Node.nil) (Node.mk h3 Node.nil Node.nil)]
    [Node.mk (hashPair Sum256 (hashPair Sum256 h1 h2) (hashPair Sum256 h3 h3))
      (Node.mk (hashPair Sum256 h1 h2)
        (Node.mk h1 Node.nil Node.nil) (Node.mk h2 Node.nil Node.nil))
      (Node.mk (hashPair Sum256 h3 h3)
        (Node.mk h3 Node.nil Node.nil) (Node.mk h3 Node.nil Node.nil))]
    (by simp) (by simp [padLevel]) (by simp [pairLevel, Node.Hash, newNode])
  simp [BuildTree, newNode, hstep1, hstep2, buildLoop_done]

/-! ## The claims -/

/-- The round trip at the value level: for every sequence of leaf hashes `hs`
and every hash `h` occurring in it (so `hs` is not empty), `BuildTree` returns
a root, `CreateMerkleProof` on that root and `h` returns a proof with a nil
error, and `VerifyMerkleProof` on the hash of the root, `h` and that proof
returns true. -/
theorem buildTree_createProof_verify (Sum256 : Bytes → Bytes) (hs : List Bytes)
    (h : Bytes) (hmem : h ∈ hs) :
    ∃ root rootHash p, BuildTree Sum256 hs = .ok root ∧ root.Hash = .ok rootHash ∧
      CreateMerkleProof root h = .ok (p, none) ∧
      VerifyMerkleProof Sum256 rootHash h p = true := by
  have hne : hs ≠ [] := List.ne_nil_of_mem hmem
  obtain ⟨root, hroot, hperf, hleaves⟩ := BuildTree_perfect Sum256 hs hne
  have hin : h ∈ leafHashes root := (hleaves h).mpr hmem
  obtain ⟨steps, hfind, _, hverify⟩ := findHash_perfect Sum256 h hperf []
  refine ⟨root, steps.foldl (verifyStep Sum256) h, steps, hroot, hverify hin, ?_, ?_⟩
  · simp [CreateMerkleProof, hfind, hin]
  · simp [VerifyMerkleProof]

/-- The round trip at the value level on the three leaves `[1]`, `[2]`, `[3]`
and the target `[2]`. -/
theorem buildTree_createProof_verify_witness :
    ([2] : Bytes) ∈ ([[1], [2], [3]] : List Bytes) ∧
    ∃ root rootHash p, BuildTree sampleDigest [[1], [2], [3]] = .ok root ∧
      root.Hash = .ok rootHash ∧
      CreateMerkleProof root [2] = .ok (p, none) ∧
      VerifyMerkleProof sampleDigest rootHash [2] p = true :=
  ⟨by decide, buildTree_createProof_verify sampleDigest [[1], [2], [3]] [2] (by decide)⟩

/-- Three leaves at the value level: for every input `[h1, h2, h3]`, `BuildTree`
returns a root whose hash is `hashPair (hashPair h1 h2) (hashPair h3 h3)`: the odd last leaf
is paired with itself. -/
theorem buildTree_three_root_hash (Sum256 : Bytes → Bytes) (h1 h2 h3 : Bytes) :
    ∃ root, BuildTree Sum256 [h1, h2, h3] = .ok root ∧
      root.Hash =
        .ok (hashPair Sum256 (hashPair Sum256 h1 h2) (hashPair Sum256 h3 h3)) :=
  ⟨_, BuildTree_three Sum256 h1 h2 h3, rfl⟩

/-- C4: for every two-leaf input `[h1, h2]`, `BuildTree` returns a root whose
hash is `hashPair h1 h2`, with `h1` the left operand and `h2` the right one. -/
theorem buildTree_two_root_hash (Sum256 : Bytes → Bytes) (h1 h2 : Bytes) :
    ∃ root, BuildTree Sum256 [h1, h2] = .ok root ∧
      root.Hash = .ok (hashPair Sum256 h1 h2) :=
  ⟨_, BuildTree_two Sum256 h1 h2, rfl⟩

/-- C5: for every single-leaf input `[h]`, `BuildTree` returns a node with a nil
`Left`, a nil `Right` and the hash `h` itself, whatever the digest is: no
`hashPair` is applied. -/
theorem buildTree_single_leaf (Sum256 : Bytes → Bytes) (h : Bytes) :
    BuildTree Sum256 [h] = .ok (Node.mk h Node.nil Node.nil) :=
  BuildTree_one Sum256 h

/-- C6, the behaviour of the code: on the empty sequence `BuildTree` returns
nothing; the read `currentLevel[0]` of line 59 panics with an index out of
range. -/
theorem buildTree_empty_panics (Sum256 : Bytes → Bytes) :
    BuildTree Sum256 [] = .error GoPanic.indexOutOfRange :=
  buildTree_empty_eq Sum256

/-- C7: for every root `BuildTree` returns (its input is then not empty) and
every target hash `t`, `CreateMerkleProof` returns the nil proof with the
hash-not-found error if and only if no leaf under the root has a hash equal
to `t`; it returns a proof with a nil error if and only if some leaf has. -/
theorem createProof_not_found_iff (Sum256 : Bytes → Bytes) (hs : List Bytes)
    (root : Node) (hbuild : BuildTree Sum256 hs = .ok root) (t : Bytes) :
    (CreateMerkleProof root t = .ok ([], some hashNotFound) ↔
      ∀ leaf ∈ leafHashes root, leaf ≠ t) ∧
    ((∃ p, CreateMerkleProof root t = .ok (p, none)) ↔
      ∃ leaf ∈ leafHashes root, leaf = t) := by
  have hne : hs ≠ [] := by
    rintro rfl
    rw [buildTree_empty_eq] at hbuild
    cases hbuild
  obtain ⟨root2, hroot, hperf, _⟩ := BuildTree_perfect Sum256 hs hne
  rw [hbuild] at hroot
  cases hroot
  obtain ⟨steps, hfind, _, _⟩ := findHash_perfect Sum256 t hperf []
  by_cases hin : t ∈ leafHashes root
  · have hres : CreateMerkleProof root t = .ok (steps, none) := by
      simp [CreateMerkleProof, hfind, hin]
    refine ⟨⟨?_, ?_⟩, ⟨?_, ?_⟩⟩
    · intro h
      rw [hres] at h
      simp at h
    · intro h
      exact absurd rfl (h t hin)
    · intro _
      exact ⟨t, hin, rfl⟩
    · intro _
      exact ⟨steps, hres⟩
  · have hres : CreateMerkleProof root t = .ok ([], some hashNotFound) := by
      simp [CreateMerkleProof, hfind, hin]
    refine ⟨⟨?_, ?_⟩, ⟨?_, ?_⟩⟩
    · intro _ leaf hleaf heq
      exact hin (heq ▸ hleaf)
    · intro _
      exact hres
    · rintro ⟨p, hp⟩
      rw [hres] at hp
      simp at hp
    · rintro ⟨leaf, hleaf, heq⟩
      exact absurd (heq ▸ hleaf) hin

/-- The equivalences of C7 on the tree of the leaves `[1]`, `[2]` and the
absent target `[3]`. -/
theorem createProof_not_found_iff_witness :
    BuildTree sampleDigest [[1], [2]] =
        .ok (Node.mk (hashPair sampleDigest [1] [2])
          (Node.mk [1] Node.nil Node.nil) (Node.mk [2] Node.nil Node.nil)) ∧
      ((CreateMerkleProof (Node.mk (hashPair sampleDigest [1] [2])
          (Node.mk [1] Node.nil Node.nil) (Node.mk [2] Node.nil Node.nil)) [3] =
          .ok ([], some hashNotFound) ↔
        ∀ leaf ∈ leafHashes (Node.mk (hashPair sampleDigest [1] [2])
          (Node.mk [1] Node.nil Node.nil) (Node.mk [2] Node.nil Node.nil)),
          leaf ≠ [3]) ∧
      ((∃ p, CreateMerkleProof (Node.mk (hashPair sampleDigest [1] [2])
          (Node.mk [1] Node.nil Node.nil) (Node.mk [2] Node.nil Node.nil)) [3] =
          .ok (p, none)) ↔
        ∃ leaf ∈ leafHashes (Node.mk (hashPair sampleDigest [1] [2])
          (Node.mk [1] Node.nil Node.nil) (Node.mk [2] Node.nil Node.nil)),
          leaf = [3])) :=
  ⟨BuildTree_two sampleDigest [1] [2],
    createProof_not_found_iff sampleDigest [[1], [2]] _
      (BuildTree_two sampleDigest [1] [2]) [3]⟩

/-- C8: for every non-empty sequence of `n` leaf hashes, `BuildTree` returns a
tree whose height, the number of edges on the longest path from the root to a
leaf, is the least `k` with `n ≤ 2 ^ k`, that is `ceil (log2 n)`; the height is
0 when `n = 1`. -/
theorem buildTree_height (Sum256 : Bytes → Bytes) (hs : List Bytes) (hne : hs ≠ []) :
    ∃ root, BuildTree Sum256 hs = .ok root ∧
      height root = Nat.clog 2 hs.length ∧
      (hs.length = 1 → height root = 0) := by
  obtain ⟨root, hroot, hperf, _⟩ := BuildTree_perfect Sum256 hs hne
  have hh : height root = Nat.clog 2 hs.length := perfect_height Sum256 hperf
  refine ⟨root, hroot, hh, ?_⟩
  intro h1
  rw [hh, h1]
  exact Nat.clog_one_right 2

/-- The height of C8 on five leaves. -/
theorem buildTree_height_witness :
    ([[1], [2], [3], [4], [5]] : List Bytes) ≠ [] ∧
    ∃ root, BuildTree sampleDigest [[1], [2], [3], [4], [5]] = .ok root ∧
      height root = Nat.clog 2 ([[1], [2], [3], [4], [5]] : List Bytes).length ∧
      (([[1], [2], [3], [4], [5]] : List Bytes).length = 1 → height root = 0) :=
  ⟨by decide, buildTree_height sampleDigest [[1], [2], [3], [4], [5]] (by decide)⟩

/-- The replay at the value level: `VerifyMerkleProof` is a total function into
the booleans, and on every input it equals the replay of the specification: `h == r` on the empty proof,
and on a step `s` followed by `rest` the replay of `rest` from
`hashPair s.Hash h` when `s.IsLeft` holds and from `hashPair h s.Hash` when
it does not. -/
theorem verifyMerkleProof_eq_replay (Sum256 : Bytes → Bytes) (r h : Bytes)
    (p : MerkleProof) :
    VerifyMerkleProof Sum256 r h p = verifyReplay Sum256 r h p := by
  induction p generalizing h with
  | nil => rfl
  | cons s rest ih =>
    have hstep : VerifyMerkleProof Sum256 r h (s :: rest) =
        VerifyMerkleProof Sum256 r (verifyStep Sum256 h s) rest := rfl
    rw [hstep, ih]
    cases hs : s.IsLeft <;> simp [verifyReplay, verifyStep, hs]

/-- C10 as stated fails: with a tree of id 7 and root leaf `[2]` already in the
registry, adding a tree of id 7 and root leaf `[1]` leaves `GetTree 7`
returning the old entry, which is not the tree added. -/
theorem addTree_getTree_stale :
    GetTree (AddTree [MerkleTree.mk 7 (Node.mk [2] Node.nil Node.nil)]
        (MerkleTree.mk 7 (Node.mk [1] Node.nil Node.nil)))
        (MerkleTree.mk 7 (Node.mk [1] Node.nil Node.nil)).ID =
      some (MerkleTree.mk 7 (Node.mk [2] Node.nil Node.nil)) ∧
    MerkleTree.mk 7 (Node.mk [2] Node.nil Node.nil) ≠
      MerkleTree.mk 7 (Node.mk [1] Node.nil Node.nil) := by
  decide

/-- C10, amended: for every registry state in which no entry has the id of the
tree `t`, after `AddTree t` the lookup `GetTree t.ID` returns a tree equal to
`t`. -/
theorem addTree_getTree_fresh (Trees : List MerkleTree) (t : MerkleTree)
    (hfresh : ∀ u ∈ Trees, u.ID ≠ t.ID) :
    GetTree (AddTree Trees t) t.ID = some t := by
  induction Trees with
  | nil => simp [AddTree, GetTree]
  | cons u rest ih =>
    have hu : u.ID ≠ t.ID := hfresh u (by simp)
    have hrest : ∀ v ∈ rest, v.ID ≠ t.ID := fun v hv => hfresh v (by simp [hv])
    have := ih hrest
    simp only [AddTree] at this
    simp [AddTree, GetTree, hu, this]

/-- The amended C10 on a registry holding one tree of id 3, adding a tree of
id 7. -/
theorem addTree_getTree_fresh_witness :
    (∀ u ∈ [MerkleTree.mk 3 Node.nil],
        u.ID ≠ (MerkleTree.mk 7 (Node.mk [1] Node.nil Node.nil)).ID) ∧
    GetTree (AddTree [MerkleTree.mk 3 Node.nil]
        (MerkleTree.mk 7 (Node.mk [1] Node.nil Node.nil)))
        (MerkleTree.mk 7 (Node.mk [1] Node.nil Node.nil)).ID =
      some (MerkleTree.mk 7 (Node.mk [1] Node.nil Node.nil)) :=
  ⟨by decide,
    addTree_getTree_fresh [MerkleTree.mk 3 Node.nil]
      (MerkleTree.mk 7 (Node.mk [1] Node.nil Node.nil)) (by decide)⟩

/-! ## The registry -/

theorem getTree_eq_none_iff (Trees : List MerkleTree) (i : UUID) :
    GetTree Trees i = none ↔ ∀ u ∈ Trees, u.ID ≠ i := by
  induction Trees with
  | nil => simp [GetTree]
  | cons u rest ih =>
    by_cases hu : u.ID = i
    · simp [GetTree, hu]
    · simp [GetTree, hu, ih]

theorem getTree_append_of_none (Trees more : List MerkleTree) (i : UUID)
    (h : GetTree Trees i = none) : GetTree (Trees ++ more) i = GetTree more i := by
  induction Trees with
  | nil => rfl
  | cons u rest ih =>
    by_cases hu : u.ID = i
    · simp [GetTree, hu] at h
    · simp only [GetTree, hu, if_false] at h
      simp [GetTree, hu, ih h]

theorem updateLoop_eq_none_iff (Trees : List MerkleTree) (t : MerkleTree) :
    updateLoop Trees t = none ↔ ∀ u ∈ Trees, u.ID ≠ t.ID := by
  induction Trees with
  | nil => simp [updateLoop]
  | cons u rest ih =>
    by_cases hu : u.ID = t.ID
    · simp [updateLoop, hu]
    · simp only [updateLoop, hu, if_false, List.mem_cons, forall_eq_or_imp, ne_eq,
        not_false_eq_true, true_and]
      rw [← ih]
      cases updateLoop rest t <;> simp

theorem updateLoop_getTree (Trees Trees1 : List MerkleTree) (t : MerkleTree)
    (h : updateLoop Trees t = some Trees1) : GetTree Trees1 t.ID = some t := by
  induction Trees generalizing Trees1 with
  | nil => simp [updateLoop] at h
  | cons u rest ih =>
    by_cases hu : u.ID = t.ID
    · simp only [updateLoop, hu, if_true, Option.some.injEq] at h
      subst h
      simp [GetTree]
    · simp only [updateLoop, hu, if_false] at h
      cases hrest : updateLoop rest t with
      | none => simp [hrest] at h
      | some rest1 =>
        simp only [hrest, Option.some.injEq] at h
        subst h
        simp [GetTree, hu, ih rest1 hrest]

theorem updateLoop_ids (Trees Trees1 : List MerkleTree) (t : MerkleTree)
    (h : updateLoop Trees t = some Trees1) :
    Trees1.map MerkleTree.ID = Trees.map MerkleTree.ID := by
  induction Trees generalizing Trees1 with
  | nil => simp [updateLoop] at h
  | cons u rest ih =>
    by_cases hu : u.ID = t.ID
    · simp only [updateLoop, hu, if_true, Option.some.injEq] at h
      subst h
      simp [hu]
    · simp only [updateLoop, hu, if_false] at h
      cases hrest : updateLoop rest t with
      | none => simp [hrest] at h
      | some rest1 =>
        simp only [hrest, Option.some.injEq] at h
        subst h
        simp [ih rest1 hrest]

theorem addTree_ids_nodup (Trees : List MerkleTree) (t : MerkleTree)
    (hnodup : (Trees.map MerkleTree.ID).Nodup) (hfresh : GetTree Trees t.ID = none) :
    ((AddTree Trees t).map MerkleTree.ID).Nodup := by
  have hne := (getTree_eq_none_iff Trees t.ID).mp hfresh
  simp only [AddTree, List.map_append, List.map_cons, List.map_nil]
  refine List.Nodup.append hnodup (List.nodup_singleton _) ?_
  intro i hi hi2
  simp only [List.mem_singleton] at hi2
  obtain ⟨u, hu, rfl⟩ := List.mem_map.mp hi
  exact hne u hu hi2

theorem updateTree_ids_nodup (Trees : List MerkleTree) (t : MerkleTree)
    (hnodup : (Trees.map MerkleTree.ID).Nodup) :
    ((UpdateTree Trees t).map MerkleTree.ID).Nodup := by
  unfold UpdateTree
  cases h : updateLoop Trees t with
  | some Trees1 =>
    simp only
    rw [updateLoop_ids Trees Trees1 t h]
    exact hnodup
  | none =>
    simp only
    exact addTree_ids_nodup Trees t hnodup
      ((getTree_eq_none_iff Trees t.ID).mpr ((updateLoop_eq_none_iff Trees t).mp h))

theorem runCalls_ids_nodup (calls : List RegistryCall) :
    ∀ Trees : List MerkleTree, (Trees.map MerkleTree.ID).Nodup →
      freshAdds Trees calls = true → ((runCalls Trees calls).map MerkleTree.ID).Nodup := by
  induction calls with
  | nil => intro Trees h _; exact h
  | cons call rest ih =>
    intro Trees hnodup hfresh
    simp only [freshAdds, Bool.and_eq_true] at hfresh
    obtain ⟨hcall, hrest⟩ := hfresh
    refine ih (call.run Trees) ?_ hrest
    cases call with
    | add t =>
      simp only [decide_eq_true_eq] at hcall
      exact addTree_ids_nodup Trees t hnodup hcall
    | update t => exact updateTree_ids_nodup Trees t hnodup

/-! ## The claims on the registry -/

/-- C11: for every registry state with an entry of id `i` and every tree `t`
whose id is `i`, after `UpdateTree t` the lookup `GetTree i` returns a tree
equal to `t`, so the root stored before is no longer returned for `i`; the
entry was replaced in place, the registry keeps its length. -/
theorem updateTree_getTree_known (Trees : List MerkleTree) (t : MerkleTree) (i : UUID)
    (hknown : ∃ u ∈ Trees, u.ID = i) (hid : t.ID = i) :
    GetTree (UpdateTree Trees t) i = some t ∧
      (UpdateTree Trees t).length = Trees.length := by
  subst hid
  cases h : updateLoop Trees t with
  | none =>
    obtain ⟨u, hu, hui⟩ := hknown
    exact absurd hui ((updateLoop_eq_none_iff Trees t).mp h u hu)
  | some Trees1 =>
    have hlen := congrArg List.length (updateLoop_ids Trees Trees1 t h)
    simp only [List.length_map] at hlen
    simp only [UpdateTree, h]
    exact ⟨updateLoop_getTree Trees Trees1 t h, hlen⟩

/-- The update of C11 on a registry holding trees of ids 3 and 7, replacing
the tree of id 7. -/
theorem updateTree_getTree_known_witness :
    (∃ u ∈ [MerkleTree.mk 3 (Node.mk [1] Node.nil Node.nil),
        MerkleTree.mk 7 (Node.mk [2] Node.nil Node.nil)], u.ID = 7) ∧
    (MerkleTree.mk 7 (Node.mk [9] Node.nil Node.nil)).ID = 7 ∧
    GetTree (UpdateTree [MerkleTree.mk 3 (Node.mk [1] Node.nil Node.nil),
        MerkleTree.mk 7 (Node.mk [2] Node.nil Node.nil)]
        (MerkleTree.mk 7 (Node.mk [9] Node.nil Node.nil))) 7 =
      some (MerkleTree.mk 7 (Node.mk [9] Node.nil Node.nil)) ∧
    (UpdateTree [MerkleTree.mk 3 (Node.mk [1] Node.nil Node.nil),
        MerkleTree.mk 7 (Node.mk [2] Node.nil Node.nil)]
        (MerkleTree.mk 7 (Node.mk [9] Node.nil Node.nil))).length =
      [MerkleTree.mk 3 (Node.mk [1] Node.nil Node.nil),
        MerkleTree.mk 7 (Node.mk [2] Node.nil Node.nil)].length :=
  ⟨by decide, by decide,
    updateTree_getTree_known
      [MerkleTree.mk 3 (Node.mk [1] Node.nil Node.nil),
        MerkleTree.mk 7 (Node.mk [2] Node.nil Node.nil)]
      (MerkleTree.mk 7 (Node.mk [9] Node.nil Node.nil)) 7 (by decide) (by decide)⟩

/-- C12: for every registry state and every tree `t` whose id matches no entry,
the registry after `UpdateTree t` is the registry after `AddTree t`. -/
theorem updateTree_unknown_eq_addTree (Trees : List MerkleTree) (t : MerkleTree)
    (hunknown : ∀ u ∈ Trees, u.ID ≠ t.ID) :
    UpdateTree Trees t = AddTree Trees t := by
  simp [UpdateTree, (updateLoop_eq_none_iff Trees t).mpr hunknown]

/-- The update of C12 on a registry holding one tree of id 3, with a tree of
id 7. -/
theorem updateTree_unknown_eq_addTree_witness :
    (∀ u ∈ [MerkleTree.mk 3 (Node.mk [1] Node.nil Node.nil)],
        u.ID ≠ (MerkleTree.mk 7 (Node.mk [2] Node.nil Node.nil)).ID) ∧
    UpdateTree [MerkleTree.mk 3 (Node.mk [1] Node.nil Node.nil)]
        (MerkleTree.mk 7 (Node.mk [2] Node.nil Node.nil)) =
      AddTree [MerkleTree.mk 3 (Node.mk [1] Node.nil Node.nil)]
        (MerkleTree.mk 7 (Node.mk [2] Node.nil Node.nil)) :=
  ⟨by decide,
    updateTree_unknown_eq_addTree [MerkleTree.mk 3 (Node.mk [1] Node.nil Node.nil)]
      (MerkleTree.mk 7 (Node.mk [2] Node.nil Node.nil)) (by decide)⟩

/-- C13 as stated fails: from the empty registry, two calls of `AddTree` with
trees of id 7 leave two entries of id 7. -/
theorem addTree_twice_duplicate_id :
    runCalls [] [RegistryCall.add (MerkleTree.mk 7 (Node.mk [1] Node.nil Node.nil)),
        RegistryCall.add (MerkleTree.mk 7 (Node.mk [2] Node.nil Node.nil))] =
      [MerkleTree.mk 7 (Node.mk [1] Node.nil Node.nil),
        MerkleTree.mk 7 (Node.mk [2] Node.nil Node.nil)] ∧
    ¬ ((runCalls [] [RegistryCall.add (MerkleTree.mk 7 (Node.mk [1] Node.nil Node.nil)),
        RegistryCall.add (MerkleTree.mk 7 (Node.mk [2] Node.nil Node.nil))]).map
          MerkleTree.ID).Nodup := by
  decide

/-- C13, amended: in every registry state reached from the empty registry by a
sequence of `AddTree` and `UpdateTree` calls in which every `AddTree` adds a
tree whose id no entry has at that moment, no two entries have the same
id. -/
theorem registry_ids_unique (calls : List RegistryCall)
    (hfresh : freshAdds [] calls = true) :
    ((runCalls [] calls).map MerkleTree.ID).Nodup :=
  runCalls_ids_nodup calls [] (by simp) hfresh

/-- The amended C13 on an add of id 3, an update of the unknown id 7 and an
update of the known id 3. -/
theorem registry_ids_unique_witness :
    freshAdds [] [RegistryCall.add (MerkleTree.mk 3 (Node.mk [1] Node.nil Node.nil)),
        RegistryCall.update (MerkleTree.mk 7 (Node.mk [2] Node.nil Node.nil)),
        RegistryCall.update (MerkleTree.mk 3 (Node.mk [4] Node.nil Node.nil))] = true ∧
    ((runCalls [] [RegistryCall.add (MerkleTree.mk 3 (Node.mk [1] Node.nil Node.nil)),
        RegistryCall.update (MerkleTree.mk 7 (Node.mk [2] Node.nil Node.nil)),
        RegistryCall.update (MerkleTree.mk 3 (Node.mk [4] Node.nil Node.nil))]).map
          MerkleTree.ID).Nodup :=
  ⟨by decide,
    registry_ids_unique
      [RegistryCall.add (MerkleTree.mk 3 (Node.mk [1] Node.nil Node.nil)),
        RegistryCall.update (MerkleTree.mk 7 (Node.mk [2] Node.nil Node.nil)),
        RegistryCall.update (MerkleTree.mk 3 (Node.mk [4] Node.nil Node.nil))]
      (by decide)⟩

/-- C14, amended: for every registry state and id `i`, `GetTree i` returns the
nil pointer (`none`) if and only if no entry has id `i`; and
it returns an entry `u` if and only if `u` has id `i`, occurs in the registry
and no entry before that occurrence has id `i`: the first one in insertion
order. -/
theorem getTree_first_match (Trees : List MerkleTree) (i : UUID) :
    (GetTree Trees i = none ↔ ∀ u ∈ Trees, u.ID ≠ i) ∧
    (∀ u, GetTree Trees i = some u ↔
      ∃ before after, Trees = before ++ u :: after ∧ u.ID = i ∧
        ∀ v ∈ before, v.ID ≠ i) := by
  refine ⟨getTree_eq_none_iff Trees i, ?_⟩
  intro u
  induction Trees with
  | nil => simp [GetTree]
  | cons w rest ih =>
    by_cases hw : w.ID = i
    · simp only [GetTree, hw, if_true, Option.some.injEq]
      constructor
      · rintro rfl
        exact ⟨[], rest, rfl, hw, by simp⟩
      · rintro ⟨before, after, heq, hu, hbefore⟩
        cases before with
        | nil =>
          simp only [List.nil_append, List.cons.injEq] at heq
          exact heq.1
        | cons b bs =>
          simp only [List.cons_append, List.cons.injEq] at heq
          exact absurd (heq.1 ▸ hw) (hbefore b (by simp))
    · simp only [GetTree, hw, if_false]
      rw [ih]
      constructor
      · rintro ⟨before, after, heq, hu, hbefore⟩
        refine ⟨w :: before, after, by simp [heq], hu, ?_⟩
        intro v hv
        rcases List.mem_cons.mp hv with rfl | hv
        · exact hw
        · exact hbefore v hv
      · rintro ⟨before, after, heq, hu, hbefore⟩
        cases before with
        | nil =>
          simp only [List.nil_append, List.cons.injEq] at heq
          exact absurd (heq.1 ▸ hu) hw
        | cons b bs =>
          simp only [List.cons_append, List.cons.injEq] at heq
          exact ⟨bs, after, heq.2, hu, fun v hv => hbefore v (by simp [hv])⟩

/-! ## More on the trees `BuildTree` makes -/

theorem buildLoop_unfold (Sum256 : Bytes → Bytes) (a b : Node) (rest : List Node) :
    buildLoop Sum256 (a :: b :: rest) =
      match padLevel (a :: b :: rest) with
      | .error e => .error e
      | .ok padded =>
        match pairLevel Sum256 padded with
        | .error e => .error e
        | .ok next => buildLoop Sum256 next := by
  have hlen : 1 < (a :: b :: rest).length := by simp
  cases hpad : padLevel (a :: b :: rest) with
  | error e =>
    rw [buildLoop]
    simp only [hlen, if_true]
    split
    · rename_i e2 he
      rw [hpad] at he
      cases he
      rfl
    · rename_i p hp
      rw [hpad] at hp
      cases hp
  | ok padded =>
    cases hpair : pairLevel Sum256 padded with
    | error e =>
      rw [buildLoop]
      simp only [hlen, if_true]
      split
      · rename_i e2 he
        rw [hpad] at he
        cases he
      · rename_i p hp
        rw [hpad] at hp
        cases hp
        split
        · rename_i e2 he
          rw [hpair] at he
          cases he
          simp [hpair]
        · rename_i n hn
          rw [hpair] at hn
          cases hn
    | ok next =>
      rw [buildLoop_step Sum256 _ padded next hlen hpad hpair]
      simp [hpair]

theorem buildLoop_single (Sum256 : Bytes → Bytes) (a : Node) :
    buildLoop Sum256 [a] = .ok [a] :=
  buildLoop_done Sum256 [a] (by simp)

theorem perfect_storedHash (Sum256 : Bytes → Bytes) {k : Nat} {t : Node} {b : Bytes}
    (hp : Perfect Sum256 k t) (hb : t.Hash = .ok b) : storedHash t = b := by
  obtain ⟨c, l, r, rfl⟩ := perfect_hash Sum256 hp
  simp only [Node.Hash, Except.ok.injEq] at hb
  simp [storedHash, hb]

theorem perfect_leaves_length (Sum256 : Bytes → Bytes) {k : Nat} {t : Node}
    (hp : Perfect Sum256 k t) : (leafHashes t).length = 2 ^ k := by
  induction hp with
  | leaf b => simp [leafHashes, Node.isNil]
  | node hl hr _ _ ihl ihr =>
    simp only [leafHashes, perfect_isNil Sum256 hl, Bool.false_and, Bool.false_eq_true,
      if_false, List.length_append, ihl, ihr]
    omega

theorem perfect_subnodes (Sum256 : Bytes → Bytes) {k : Nat} {t : Node}
    (hp : Perfect Sum256 k t) : ∀ n ∈ subnodes t, ∃ j, Perfect Sum256 j n := by
  induction hp with
  | leaf b =>
    intro n hn
    simp only [subnodes, List.append_nil, List.mem_singleton] at hn
    subst hn
    exact ⟨0, Perfect.leaf b⟩
  | node hl hr hlh hrh ihl ihr =>
    intro n hn
    simp only [subnodes, List.mem_cons, List.mem_append] at hn
    rcases hn with rfl | hn | hn
    · exact ⟨_, Perfect.node hl hr hlh hrh⟩
    · exact ihl n hn
    · exact ihr n hn

theorem firstIndex_append_mem (t : Bytes) (a b : List Bytes) (h : t ∈ a) :
    firstIndex t (a ++ b) = firstIndex t a ∧ firstIndex t a < a.length := by
  induction a with
  | nil => simp at h
  | cons x rest ih =>
    by_cases hx : x = t
    · simp [firstIndex, hx]
    · have hrest : t ∈ rest := by
        rcases List.mem_cons.mp h with rfl | h
        · exact absurd rfl hx
        · exact h
      simp [firstIndex, hx, ih hrest]

theorem firstIndex_append_not_mem (t : Bytes) (a b : List Bytes) (h : t ∉ a) :
    firstIndex t (a ++ b) = a.length + firstIndex t b := by
  induction a with
  | nil => simp
  | cons x rest ih =>
    have hx : ¬ x = t := fun hx => h (by simp [hx])
    have hrest : t ∉ rest := fun hr => h (by simp [hr])
    simp [firstIndex, hx, ih hrest]
    omega

theorem firstIndex_spec (t : Bytes) (l : List Bytes) (h : t ∈ l) :
    l[firstIndex t l]? = some t ∧ ∀ j, j < firstIndex t l → l[j]? ≠ some t := by
  induction l with
  | nil => simp at h
  | cons x rest ih =>
    by_cases hx : x = t
    · simp [firstIndex, hx]
    · have hrest : t ∈ rest := by
        rcases List.mem_cons.mp h with rfl | h
        · exact absurd rfl hx
        · exact h
      obtain ⟨h1, h2⟩ := ih hrest
      refine ⟨by simp [firstIndex, hx, h1], ?_⟩
      intro j hj
      simp only [firstIndex, hx, if_false] at hj
      cases j with
      | zero => simp [hx]
      | succ j =>
        simp only [List.getElem?_cons_succ]
        exact h2 j (by omega)

theorem findHash_path (Sum256 : Bytes → Bytes) (hash : Bytes) {k : Nat} {t : Node}
    (hp : Perfect Sum256 k t) :
    ∀ proof : MerkleProof,
      findHash hash t proof =
        .ok (decide (hash ∈ leafHashes t),
          proof ++ (if hash ∈ leafHashes t
            then pathOfLeaf t (firstIndex hash (leafHashes t)) else [])) := by
  induction hp with
  | leaf b =>
    intro proof
    by_cases hb : b = hash
    · simp [findHash, Node.isNil, leafHashes, pathOfLeaf, hb]
    · have hb2 : ¬ hash = b := fun h => hb h.symm
      simp [findHash, Node.isNil, leafHashes, hb, hb2]
  | node hl hr hlh hrh ihl ihr =>
    rename_i k l r lh rh
    intro proof
    have hnil : l.isNil = false := perfect_isNil Sum256 hl
    have hsl : storedHash l = lh := perfect_storedHash Sum256 hl hlh
    have hsr : storedHash r = rh := perfect_storedHash Sum256 hr hrh
    by_cases hinl : hash ∈ leafHashes l
    · obtain ⟨hidx, hlt⟩ := firstIndex_append_mem hash (leafHashes l) (leafHashes r) hinl
      simp [findHash, hnil, ihl proof, hinl, hrh, leafHashes, pathOfLeaf, hidx, hlt, hsr]
    · have hidx := firstIndex_append_not_mem hash (leafHashes l) (leafHashes r) hinl
      by_cases hinr : hash ∈ leafHashes r
      · simp [findHash, hnil, ihl proof, ihr proof, hinl, hinr, hlh, leafHashes,
          pathOfLeaf, hidx, hsl]
      · simp [findHash, hnil, ihl proof, ihr proof, hinl, hinr, leafHashes]

theorem padLevel_cases (level padded : List Node) (h : padLevel level = .ok padded) :
    padded = level ∨ ∃ last ∈ level, padded = level ++ [last] := by
  unfold padLevel at h
  split at h
  · split at h
    · simp at h
    · rename_i last hlast
      simp only [Except.ok.injEq] at h
      subst h
      exact Or.inr ⟨last, List.getElem?_mem hlast, rfl⟩
  · simp only [Except.ok.injEq] at h
    exact Or.inl h.symm

theorem buildLoop_leaves (Sum256 : Bytes → Bytes) :
    ∀ (n : Nat) (level : List Node) (k : Nat) (root : Node), level.length = n →
      level ≠ [] → (∀ t ∈ level, Perfect Sum256 k t) →
      buildLoop Sum256 level = .ok [root] →
      ∃ extra, leafHashes root = levelLeaves level ++ extra ∧
        ∀ y ∈ extra, y ∈ levelLeaves level := by
  intro n
  induction n using Nat.strong_induction_on with
  | _ n ih =>
    intro level k root hn hne hall hroot
    have hpos : 0 < level.length := List.length_pos.mpr hne
    by_cases hone : level.length ≤ 1
    · rw [buildLoop_done Sum256 _ hone] at hroot
      simp only [Except.ok.injEq] at hroot
      subst hroot
      exact ⟨[], by simp [levelLeaves], by simp⟩
    · have hgt : 1 < level.length := by omega
      obtain ⟨padded, hpad, hpadall, _, hpadlen⟩ := padLevel_perfect Sum256 k level hall
      have heven : padded.length % 2 = 0 := by omega
      obtain ⟨next, hpair, hnextall, hnextleaves, hnextlen⟩ :=
        pairLevel_perfect Sum256 k padded hpadall heven
      have hlt : next.length < n := by omega
      have hnextne : next ≠ [] := by
        intro h
        rw [h] at hnextlen
        simp at hnextlen
        omega
      rw [buildLoop_step Sum256 level padded next hgt hpad hpair] at hroot
      obtain ⟨extra, hleaves, hextra⟩ :=
        ih next.length hlt next (k + 1) root rfl hnextne hnextall hroot
      rw [hnextleaves] at hleaves hextra
      rcases padLevel_cases level padded hpad with rfl | ⟨last, hlast, rfl⟩
      · exact ⟨extra, hleaves, hextra⟩
      · rw [levelLeaves_append] at hleaves hextra
        simp only [levelLeaves, List.append_nil] at hleaves hextra
        refine ⟨leafHashes last ++ extra, by simp [hleaves], ?_⟩
        intro y hy
        rcases List.mem_append.mp hy with hy | hy
        · exact levelLeaves_mem level last hlast y hy
        · rcases List.mem_append.mp (hextra y hy) with h1 | h1
          · exact h1
          · exact levelLeaves_mem level last hlast y h1

theorem buildTree_ne_nil (Sum256 : Bytes → Bytes) (hs : List Bytes) (root : Node)
    (hbuild : BuildTree Sum256 hs = .ok root) : hs ≠ [] := by
  rintro rfl
  rw [buildTree_empty_eq] at hbuild
  cases hbuild

theorem buildTree_perfect_of_ok (Sum256 : Bytes → Bytes) (hs : List Bytes) (root : Node)
    (hbuild : BuildTree Sum256 hs = .ok root) :
    Perfect Sum256 (Nat.clog 2 hs.length) root := by
  obtain ⟨root2, hroot, hperf, _⟩ :=
    BuildTree_perfect Sum256 hs (buildTree_ne_nil Sum256 hs root hbuild)
  rw [hbuild] at hroot
  cases hroot
  exact hperf

theorem buildTree_append_last (Sum256 : Bytes → Bytes) (hs : List Bytes) (x : Bytes)
    (hodd : hs.length % 2 = 1) (hlen : 3 ≤ hs.length) (hlast : hs.getLast? = some x) :
    BuildTree Sum256 (hs ++ [x]) = BuildTree Sum256 hs := by
  have hget : hs[hs.length - 1]? = some x := by
    rw [← List.getLast?_eq_getElem?]
    exact hlast
  have hpad1 : padLevel (hs.map (fun hash => newNode hash Node.nil Node.nil)) =
      .ok ((hs ++ [x]).map (fun hash => newNode hash Node.nil Node.nil)) := by
    simp [padLevel, hodd, hget]
  have hpad2 : padLevel ((hs ++ [x]).map (fun hash => newNode hash Node.nil Node.nil)) =
      .ok ((hs ++ [x]).map (fun hash => newNode hash Node.nil Node.nil)) := by
    have : (hs.length + 1) % 2 = 0 := by omega
    simp [padLevel, this]
  have hall : ∀ t ∈ (hs ++ [x]).map (fun hash => newNode hash Node.nil Node.nil),
      Perfect Sum256 0 t := by
    intro t ht
    obtain ⟨h, _, rfl⟩ := List.mem_map.mp ht
    exact Perfect.leaf h
  have heven : ((hs ++ [x]).map (fun hash => newNode hash Node.nil Node.nil)).length % 2
      = 0 := by
    simp only [List.length_map, List.length_append, List.length_singleton]
    omega
  obtain ⟨next, hpair, _, _, _⟩ := pairLevel_perfect Sum256 0 _ hall heven
  have h1 := buildLoop_step Sum256 _ _ next (by simp; omega) hpad1 hpair
  have h2 := buildLoop_step Sum256 _ _ next (by simp; omega) hpad2 hpair
  simp only [BuildTree]
  rw [h1, h2]

/-! ## The claims on hashing, proofs and the shape of the tree -/

/-- C15: `hashPair left right` is the digest of the bytes of `left` followed by
the bytes of `right`, and it depends on its operands through that
concatenation only: operands with an equal concatenation, equal operands among
them, give an equal result. -/
theorem hashPair_digest_of_concat (Sum256 : Bytes → Bytes)
    (left right left2 right2 : Bytes) (hcat : left2 ++ right2 = left ++ right) :
    hashPair Sum256 left right = Sum256 (left ++ right) ∧
      hashPair Sum256 left2 right2 = hashPair Sum256 left right := by
  simp [hashPair, hcat]

/-- The equalities of C15 on the operands `[1]`, `[2, 3]` and `[1, 2]`, `[3]`. -/
theorem hashPair_digest_of_concat_witness :
    ([1, 2] : Bytes) ++ [3] = [1] ++ [2, 3] ∧
    hashPair sampleDigest [1] [2, 3] = sampleDigest ([1] ++ [2, 3]) ∧
    hashPair sampleDigest [1, 2] [3] = hashPair sampleDigest [1] [2, 3] :=
  ⟨by decide, hashPair_digest_of_concat sampleDigest [1] [2, 3] [1, 2] [3] (by decide)⟩

/-- The proof at the value level: for every root `BuildTree` returns and every
target hash `t` that some
leaf under it holds, `CreateMerkleProof` returns, with a nil error, the
sibling path of the leaf at the first position, left to right, whose hash is
`t`, listed from the level of that leaf up to the root, with the sides of
`pathOfLeaf`.  For the input `[t, t]` the proof is the single step
`(t, IsLeft = false)`. -/
theorem createProof_leftmost_path (Sum256 : Bytes → Bytes) (hs : List Bytes)
    (root : Node) (hbuild : BuildTree Sum256 hs = .ok root) (t : Bytes)
    (hmem : t ∈ leafHashes root) :
    CreateMerkleProof root t =
        .ok (pathOfLeaf root (firstIndex t (leafHashes root)), none) ∧
      (leafHashes root)[firstIndex t (leafHashes root)]? = some t ∧
      (∀ j, j < firstIndex t (leafHashes root) → (leafHashes root)[j]? ≠ some t) ∧
      (∃ root2, BuildTree Sum256 [t, t] = .ok root2 ∧
        CreateMerkleProof root2 t = .ok ([ProofSibling.mk t false], none)) := by
  have hperf := buildTree_perfect_of_ok Sum256 hs root hbuild
  obtain ⟨h1, h2⟩ := firstIndex_spec t (leafHashes root) hmem
  refine ⟨?_, h1, h2, ⟨_, BuildTree_two Sum256 t t, ?_⟩⟩
  · simp [CreateMerkleProof, findHash_path Sum256 t hperf, hmem]
  · simp [CreateMerkleProof, findHash, Node.isNil, Node.Hash]

/-- The proof at the value level on the tree of the leaves `[1]`, `[2]` and the
target
`[2]`. -/
theorem createProof_leftmost_path_witness :
    BuildTree sampleDigest [[1], [2]] =
        .ok (Node.mk (hashPair sampleDigest [1] [2])
          (Node.mk [1] Node.nil Node.nil) (Node.mk [2] Node.nil Node.nil)) ∧
    ([2] : Bytes) ∈ leafHashes (Node.mk (hashPair sampleDigest [1] [2])
          (Node.mk [1] Node.nil Node.nil) (Node.mk [2] Node.nil Node.nil)) ∧
    (CreateMerkleProof (Node.mk (hashPair sampleDigest [1] [2])
          (Node.mk [1] Node.nil Node.nil) (Node.mk [2] Node.nil Node.nil)) [2] =
        .ok (pathOfLeaf (Node.mk (hashPair sampleDigest [1] [2])
            (Node.mk [1] Node.nil Node.nil) (Node.mk [2] Node.nil Node.nil))
          (firstIndex [2] (leafHashes (Node.mk (hashPair sampleDigest [1] [2])
            (Node.mk [1] Node.nil Node.nil) (Node.mk [2] Node.nil Node.nil)))), none) ∧
      (leafHashes (Node.mk (hashPair sampleDigest [1] [2])
          (Node.mk [1] Node.nil Node.nil) (Node.mk [2] Node.nil Node.nil)))[firstIndex [2]
            (leafHashes (Node.mk (hashPair sampleDigest [1] [2])
              (Node.mk [1] Node.nil Node.nil) (Node.mk [2] Node.nil Node.nil)))]? =
        some [2] ∧
      (∀ j, j < firstIndex [2] (leafHashes (Node.mk (hashPair sampleDigest [1] [2])
            (Node.mk [1] Node.nil Node.nil) (Node.mk [2] Node.nil Node.nil))) →
        (leafHashes (Node.mk (hashPair sampleDigest [1] [2])
          (Node.mk [1] Node.nil Node.nil) (Node.mk [2] Node.nil Node.nil)))[j]? ≠
          some [2]) ∧
      (∃ root2, BuildTree sampleDigest [[2], [2]] = .ok root2 ∧
        CreateMerkleProof root2 [2] = .ok ([ProofSibling.mk [2] false], none))) :=
  ⟨BuildTree_two sampleDigest [1] [2], by decide,
    createProof_leftmost_path sampleDigest [[1], [2]] _
      (BuildTree_two sampleDigest [1] [2]) [2] (by decide)⟩

/-- The shape at the value level: in the tree `BuildTree` returns, every node
has either a nil `Left` and
a nil `Right`, or a `Left` and a `Right` that are both not nil; in the second
case its hash is `hashPair` of the hash of `Left` and the hash of `Right`. -/
theorem buildTree_node_shape (Sum256 : Bytes → Bytes) (hs : List Bytes)
    (root : Node) (hbuild : BuildTree Sum256 hs = .ok root) :
    root ∈ subnodes root ∧
    ∀ n ∈ subnodes root, ∃ h l r, n = Node.mk h l r ∧
      ((l = Node.nil ∧ r = Node.nil) ∨
        (l ≠ Node.nil ∧ r ≠ Node.nil ∧
          ∃ lh rh, l.Hash = .ok lh ∧ r.Hash = .ok rh ∧ h = hashPair Sum256 lh rh)) := by
  have hperf := buildTree_perfect_of_ok Sum256 hs root hbuild
  constructor
  · obtain ⟨b, l, r, rfl⟩ := perfect_hash Sum256 hperf
    simp [subnodes]
  · intro n hn
    obtain ⟨j, hj⟩ := perfect_subnodes Sum256 hperf n hn
    cases hj with
    | leaf b => exact ⟨b, _, _, rfl, Or.inl ⟨rfl, rfl⟩⟩
    | node hl hr hlh hrh =>
      rename_i k l r lh rh
      refine ⟨_, l, r, rfl, Or.inr ⟨?_, ?_, lh, rh, hlh, hrh, rfl⟩⟩
      · rintro rfl
        cases hlh
      · rintro rfl
        cases hrh

/-- The shape at the value level on the tree of the leaves `[1]`, `[2]`. -/
theorem buildTree_node_shape_witness :
    BuildTree sampleDigest [[1], [2]] =
        .ok (Node.mk (hashPair sampleDigest [1] [2])
          (Node.mk [1] Node.nil Node.nil) (Node.mk [2] Node.nil Node.nil)) ∧
    (Node.mk (hashPair sampleDigest [1] [2])
        (Node.mk [1] Node.nil Node.nil) (Node.mk [2] Node.nil Node.nil) ∈
      subnodes (Node.mk (hashPair sampleDigest [1] [2])
        (Node.mk [1] Node.nil Node.nil) (Node.mk [2] Node.nil Node.nil)) ∧
    ∀ n ∈ subnodes (Node.mk (hashPair sampleDigest [1] [2])
        (Node.mk [1] Node.nil Node.nil) (Node.mk [2] Node.nil Node.nil)),
      ∃ h l r, n = Node.mk h l r ∧
        ((l = Node.nil ∧ r = Node.nil) ∨
          (l ≠ Node.nil ∧ r ≠ Node.nil ∧
            ∃ lh rh, l.Hash = .ok lh ∧ r.Hash = .ok rh ∧
              h = hashPair sampleDigest lh rh))) :=
  ⟨BuildTree_two sampleDigest [1] [2],
    buildTree_node_shape sampleDigest [[1], [2]] _ (BuildTree_two sampleDigest [1] [2])⟩

/-- The collision at the value level: for every sequence `hs` of odd length at
least 3 whose last element is
`x`, `BuildTree` returns the same root, so the same root hash, on `hs` and
on `hs` followed by one more `x`; the two inputs differ, so the root hash is
not an injective function of the leaf sequence. -/
theorem buildTree_self_pairing_collision (Sum256 : Bytes → Bytes) (hs : List Bytes)
    (x : Bytes) (hodd : hs.length % 2 = 1) (hlen : 3 ≤ hs.length)
    (hlast : hs.getLast? = some x) :
    ∃ root rootHash, BuildTree Sum256 hs = .ok root ∧
      BuildTree Sum256 (hs ++ [x]) = .ok root ∧
      root.Hash = .ok rootHash ∧ hs ++ [x] ≠ hs := by
  have hne : hs ≠ [] := by
    rintro rfl
    simp at hlen
  obtain ⟨root, hroot, hperf, _⟩ := BuildTree_perfect Sum256 hs hne
  obtain ⟨b, l, r, rfl⟩ := perfect_hash Sum256 hperf
  refine ⟨_, b, hroot, ?_, rfl, by simp⟩
  rw [buildTree_append_last Sum256 hs x hodd hlen hlast]
  exact hroot

/-- The collision at the value level on the leaves `[1]`, `[2]`, `[3]` and the
same leaves
followed by `[3]`. -/
theorem buildTree_self_pairing_collision_witness :
    ([[1], [2], [3]] : List Bytes).length % 2 = 1 ∧
    3 ≤ ([[1], [2], [3]] : List Bytes).length ∧
    ([[1], [2], [3]] : List Bytes).getLast? = some [3] ∧
    ∃ root rootHash, BuildTree sampleDigest [[1], [2], [3]] = .ok root ∧
      BuildTree sampleDigest ([[1], [2], [3]] ++ [[3]]) = .ok root ∧
      root.Hash = .ok rootHash ∧ ([[1], [2], [3]] : List Bytes) ++ [[3]] ≠ [[1], [2], [3]] :=
  ⟨by decide, by decide, by decide,
    buildTree_self_pairing_collision sampleDigest [[1], [2], [3]] [3]
      (by decide) (by decide) (by decide)⟩

/-- Six leaves at the value level: on the leaves `[1]` ... `[6]` the three nodes
of
the second level are padded with a copy of the third one, so the leaf
sequence of the tree ends with `[5]`, `[6]`, `[5]`, `[6]`: position 6, past
the input, holds `[5]`, which is not the last element `[6]` of the input. -/
theorem buildTree_six_leaf_sequence :
    ∃ root, BuildTree sampleDigest [[1], [2], [3], [4], [5], [6]] = .ok root ∧
      leafHashes root = [[1], [2], [3], [4], [5], [6], [5], [6]] ∧
      (leafHashes root)[6]? = some [5] ∧
      ([[1], [2], [3], [4], [5], [6]] : List Bytes).getLast? = some [6] ∧
      ([5] : Bytes) ≠ [6] := by
  simp [BuildTree, buildLoop_unfold, buildLoop_single, padLevel, pairLevel, Node.Hash,
    newNode, hashPair, sampleDigest, leafHashes, Node.isNil]

/-- The leaf sequence at the value level: for every non-empty input `hs` of
length `n`, `BuildTree`
returns a tree whose leaf hashes, left to right, are `hs` followed by
further hashes, `2 ^ ceil (log2 n)` in all, and every further hash is a copy
of an element of `hs`. -/
theorem buildTree_leaf_sequence (Sum256 : Bytes → Bytes) (hs : List Bytes)
    (hne : hs ≠ []) :
    ∃ root extra, BuildTree Sum256 hs = .ok root ∧
      leafHashes root = hs ++ extra ∧
      (leafHashes root).length = 2 ^ Nat.clog 2 hs.length ∧
      ∀ y ∈ extra, y ∈ hs := by
  have hall : ∀ t ∈ hs.map (fun hash => newNode hash Node.nil Node.nil),
      Perfect Sum256 0 t := by
    intro t ht
    obtain ⟨h, _, rfl⟩ := List.mem_map.mp ht
    exact Perfect.leaf h
  have hne2 : hs.map (fun hash => newNode hash Node.nil Node.nil) ≠ [] := by
    simpa using hne
  obtain ⟨root, hloop, _, _⟩ := buildLoop_perfect Sum256 _ _ 0 rfl hne2 hall
  have hroot : BuildTree Sum256 hs = .ok root := by
    simp [BuildTree, hloop]
  obtain ⟨extra, hleaves, hextra⟩ :=
    buildLoop_leaves Sum256 _ _ 0 root rfl hne2 hall hloop
  rw [levelLeaves_newLeaves] at hleaves hextra
  exact ⟨root, extra, hroot, hleaves,
    perfect_leaves_length Sum256 (buildTree_perfect_of_ok Sum256 hs root hroot), hextra⟩

/-- The leaf sequence at the value level on five leaves. -/
theorem buildTree_leaf_sequence_witness :
    ([[1], [2], [3], [4], [5]] : List Bytes) ≠ [] ∧
    ∃ root extra, BuildTree sampleDigest [[1], [2], [3], [4], [5]] = .ok root ∧
      leafHashes root = [[1], [2], [3], [4], [5]] ++ extra ∧
      (leafHashes root).length =
        2 ^ Nat.clog 2 ([[1], [2], [3], [4], [5]] : List Bytes).length ∧
      ∀ y ∈ extra, y ∈ ([[1], [2], [3], [4], [5]] : List Bytes) :=
  ⟨by decide, buildTree_leaf_sequence sampleDigest [[1], [2], [3], [4], [5]] (by decide)⟩

/-- The proof length at the value level: for every input `hs` of length `n` and
every hash `h` occurring in it,
`BuildTree` returns a root on which `CreateMerkleProof` returns, with a nil
error, a proof of exactly `ceil (log2 n)` steps, none when `n = 1`. -/
theorem createProof_length (Sum256 : Bytes → Bytes) (hs : List Bytes) (h : Bytes)
    (hmem : h ∈ hs) :
    ∃ root p, BuildTree Sum256 hs = .ok root ∧
      CreateMerkleProof root h = .ok (p, none) ∧
      p.length = Nat.clog 2 hs.length ∧
      (hs.length = 1 → p = []) := by
  have hne : hs ≠ [] := List.ne_nil_of_mem hmem
  obtain ⟨root, hroot, hperf, hleaves⟩ := BuildTree_perfect Sum256 hs hne
  have hin : h ∈ leafHashes root := (hleaves h).mpr hmem
  obtain ⟨steps, hfind, hlen, _⟩ := findHash_perfect Sum256 h hperf []
  simp only [hin, if_true] at hlen
  refine ⟨root, steps, hroot, ?_, hlen, ?_⟩
  · simp [CreateMerkleProof, hfind, hin]
  · intro h1
    rw [h1, Nat.clog_one_right] at hlen
    exact List.length_eq_zero.mp hlen

/-- The proof length at the value level on five leaves and the target `[4]`. -/
theorem createProof_length_witness :
    ([4] : Bytes) ∈ ([[1], [2], [3], [4], [5]] : List Bytes) ∧
    ∃ root p, BuildTree sampleDigest [[1], [2], [3], [4], [5]] = .ok root ∧
      CreateMerkleProof root [4] = .ok (p, none) ∧
      p.length = Nat.clog 2 ([[1], [2], [3], [4], [5]] : List Bytes).length ∧
      (([[1], [2], [3], [4], [5]] : List Bytes).length = 1 → p = []) :=
  ⟨by decide, createProof_length sampleDigest [[1], [2], [3], [4], [5]] [4] (by decide)⟩

/-! ## The loops of `Heap.BuildTree` -/

theorem buildLoop_done_heap (Sum256 : Bytes → Bytes) (m : Heap.Memory)
    (level : List Heap.Node) (h : level.length ≤ 1) :
    Heap.buildLoop Sum256 m level = .ok (level, m) := by
  rw [Heap.buildLoop]
  simp [Nat.not_lt.mpr h]

theorem buildLoop_step_heap (Sum256 : Bytes → Bytes) (m : Heap.Memory)
    (level padded : List Heap.Node) (next : List Heap.Node × Heap.Memory)
    (h : 1 < level.length) (hpad : Heap.padLevel level = .ok padded)
    (hpair : Heap.pairLevel Sum256 m padded = .ok next) :
    Heap.buildLoop Sum256 m level = Heap.buildLoop Sum256 next.2 next.1 := by
  rw [Heap.buildLoop]
  simp only [h, if_true]
  split
  · rename_i e he
    rw [hpad] at he
    cases he
  · rename_i p hp
    rw [hpad] at hp
    cases hp
    split
    · rename_i e he
      rw [hpair] at he
      cases he
    · rename_i n hn
      rw [hpair] at hn
      cases hn
      rfl

theorem buildLoop_unfold_heap (Sum256 : Bytes → Bytes) (m : Heap.Memory)
    (a b : Heap.Node) (rest : List Heap.Node) :
    Heap.buildLoop Sum256 m (a :: b :: rest) =
      match Heap.padLevel (a :: b :: rest) with
      | .error e => .error e
      | .ok padded =>
        match Heap.pairLevel Sum256 m padded with
        | .error e => .error e
        | .ok next => Heap.buildLoop Sum256 next.2 next.1 := by
  have hlen : 1 < (a :: b :: rest).length := by simp
  cases hpad : Heap.padLevel (a :: b :: rest) with
  | error e =>
    rw [Heap.buildLoop]
    simp only [hlen, if_true]
    split
    · rename_i e2 he
      rw [hpad] at he
      cases he
      rfl
    · rename_i p hp
      rw [hpad] at hp
      cases hp
  | ok padded =>
    cases hpair : Heap.pairLevel Sum256 m padded with
    | error e =>
      rw [Heap.buildLoop]
      simp only [hlen, if_true]
      split
      · rename_i e2 he
        rw [hpad] at he
        cases he
      · rename_i p hp
        rw [hpad] at hp
        cases hp
        split
        · rename_i e2 he
          rw [hpair] at he
          cases he
          simp [hpair]
        · rename_i n hn
          rw [hpair] at hn
          cases hn
    | ok next =>
      rw [buildLoop_step_heap Sum256 m _ padded next hlen hpad hpair]
      simp [hpair]

theorem buildLoop_single_heap (Sum256 : Bytes → Bytes) (m : Heap.Memory)
    (a : Heap.Node) : Heap.buildLoop Sum256 m [a] = .ok ([a], m) :=
  buildLoop_done_heap Sum256 m [a] (by simp)

/-! ## Slices without spare capacity: the two levels agree -/

theorem set_self_heap {α : Type} :
    ∀ (l : List α) (i : Nat) (a : α), l[i]? = some a → l.set i a = l
  | [], _, _, h => by simp at h
  | x :: xs, 0, a, h => by
    simp only [List.getElem?_cons_zero, Option.some.injEq] at h
    simp [h]
  | x :: xs, i + 1, a, h => by
    simp only [List.getElem?_cons_succ] at h
    simp [set_self_heap xs i a h]

theorem write_nil_heap (m : Heap.Memory) (arr pos : Nat) :
    Heap.write m arr pos [] = m := by
  unfold Heap.write
  cases h : m[arr]? with
  | none => rfl
  | some a =>
    simp only [List.append_nil, List.length_nil, Nat.add_zero, List.take_append_drop]
    exact set_self_heap m arr a h

theorem read_append_heap (m extra : Heap.Memory) (s : Heap.Slice)
    (h : s.arr < m.length) : Heap.read (m ++ extra) s = Heap.read m s := by
  simp [Heap.read, List.getElem?_append_left h]

theorem read_length_heap (m : Heap.Memory) (s : Heap.Slice) :
    (Heap.read m s).length ≤ s.len := by
  simp only [Heap.read, List.length_take]
  omega

theorem read_new_heap (m : Heap.Memory) (data : Bytes) :
    Heap.read (m ++ [data]) (Heap.Slice.mk m.length 0 data.length data.length) = data := by
  simp [Heap.read]

theorem hashPair_tight_heap (Sum256 : Bytes → Bytes) (m : Heap.Memory)
    (left right : Heap.Slice) (h : left.cap = left.len) :
    ∃ extra, (Heap.hashPair Sum256 m left right).2 = m ++ extra ∧
      (Heap.hashPair Sum256 m left right).1.tight (m ++ extra) ∧
      Heap.read (m ++ extra) (Heap.hashPair Sum256 m left right).1 =
        hashPair Sum256 (Heap.read m left) (Heap.read m right) := by
  by_cases hroom : left.len + right.len ≤ left.cap
  · have hzero : right.len = 0 := by omega
    have hdata : Heap.read m right = [] := by
      simp [Heap.read, hzero]
    have happ : Heap.goAppend m left right =
        (Heap.Slice.mk left.arr left.off left.len left.cap, m) := by
      simp [Heap.goAppend, hdata, write_nil_heap, hzero, h]
    have hpair : Heap.read m (Heap.Slice.mk left.arr left.off left.len left.cap) =
        Heap.read m left := rfl
    refine ⟨[Sum256 (Heap.read m left)], ?_, ?_, ?_⟩
    · simp [Heap.hashPair, happ, hpair]
    · simp [Heap.hashPair, happ, hpair, Heap.Slice.tight]
    · simp only [Heap.hashPair, happ, hpair, hdata, hashPair, List.append_nil]
      exact read_new_heap m _
  · have happ : Heap.goAppend m left right =
        (Heap.Slice.mk m.length 0 (left.len + right.len) (left.len + right.len),
          m ++ [Heap.read m left ++ Heap.read m right]) := by
      simp [Heap.goAppend, hroom]
    have hpair : Heap.read (m ++ [Heap.read m left ++ Heap.read m right])
        (Heap.Slice.mk m.length 0 (left.len + right.len) (left.len + right.len)) =
        Heap.read m left ++ Heap.read m right := by
      have h1 := read_length_heap m left
      have h2 := read_length_heap m right
      simp only [Heap.read, List.getD_eq_getElem?_getD, List.getElem?_concat_length,
        Option.getD_some, List.drop_zero]
      apply List.take_of_length_le
      simp only [List.length_append]
      simp only [Heap.read, List.getD_eq_getElem?_getD] at h1 h2
      omega
    refine ⟨[Heap.read m left ++ Heap.read m right,
      Sum256 (Heap.read m left ++ Heap.read m right)], ?_, ?_, ?_⟩
    · simp [Heap.hashPair, happ, hpair]
    · simp [Heap.hashPair, happ, hpair, Heap.Slice.tight]
    · simp only [Heap.hashPair, happ, hpair, hashPair]
      have := read_new_heap (m ++ [Heap.read m left ++ Heap.read m right])
        (Sum256 (Heap.read m left ++ Heap.read m right))
      simpa using this

theorem within_append_heap (m extra : Heap.Memory) :
    ∀ t : Heap.Node, t.within m → t.within (m ++ extra)
  | .nil, _ => trivial
  | .mk s l r, h => by
    simp only [Heap.Node.within, List.length_append] at h ⊢
    exact ⟨by omega, within_append_heap m extra l h.2.1, within_append_heap m extra r h.2.2⟩

theorem value_append_heap (m extra : Heap.Memory) :
    ∀ t : Heap.Node, t.within m → t.value (m ++ extra) = t.value m
  | .nil, _ => rfl
  | .mk s l r, h => by
    simp only [Heap.Node.within] at h
    simp only [Heap.Node.value, read_append_heap m extra s h.1,
      value_append_heap m extra l h.2.1, value_append_heap m extra r h.2.2]

theorem sound_within_heap (m : Heap.Memory) (t : Heap.Node) (h : t.sound m) :
    t.within m := by
  cases t with
  | nil => exact h.elim
  | mk s l r =>
    simp only [Heap.Node.sound, Heap.Slice.tight] at h
    exact ⟨h.1.1, h.2.1, h.2.2⟩

theorem sound_append_heap (m extra : Heap.Memory) (t : Heap.Node) (h : t.sound m) :
    t.sound (m ++ extra) := by
  cases t with
  | nil => exact h.elim
  | mk s l r =>
    simp only [Heap.Node.sound, Heap.Slice.tight, List.length_append] at h ⊢
    exact ⟨⟨by omega, h.1.2⟩, within_append_heap m extra l h.2.1,
      within_append_heap m extra r h.2.2⟩

theorem map_value_append_heap (m extra : Heap.Memory) (level : List Heap.Node)
    (h : ∀ t ∈ level, t.within m) :
    level.map (Heap.Node.value (m ++ extra)) = level.map (Heap.Node.value m) := by
  apply List.map_congr_left
  intro t ht
  exact value_append_heap m extra t (h t ht)

theorem pairLevel_tight_heap (Sum256 : Bytes → Bytes) :
    ∀ (level : List Heap.Node) (m : Heap.Memory), (∀ t ∈ level, t.sound m) →
      level.length % 2 = 0 →
      ∃ next extra, Heap.pairLevel Sum256 m level = .ok (next, m ++ extra) ∧
        (∀ t ∈ next, t.sound (m ++ extra)) ∧
        pairLevel Sum256 (level.map (Heap.Node.value m)) =
          .ok (next.map (Heap.Node.value (m ++ extra)))
  | [], m, _, _ => ⟨[], [], by simp [Heap.pairLevel], by simp, by simp [pairLevel]⟩
  | [_], _, _, hlen => by simp at hlen
  | left :: right :: rest, m, hall, hlen => by
    have hl := hall left (by simp)
    have hr := hall right (by simp)
    have hlen2 : rest.length % 2 = 0 := by
      simp only [List.length_cons] at hlen
      omega
    cases left with
    | nil => exact hl.elim
    | mk ls ll lr =>
      cases right with
      | nil => exact hr.elim
      | mk rs rl rr =>
        obtain ⟨e1, hmem, htight, hread⟩ := hashPair_tight_heap Sum256 m ls rs hl.1.2
        have hrest : ∀ t ∈ rest, t.sound (m ++ e1) := fun t ht =>
          sound_append_heap m e1 t (hall t (by simp [ht]))
        have hrestw : ∀ t ∈ rest, t.within m := fun t ht =>
          sound_within_heap m t (hall t (by simp [ht]))
        obtain ⟨next, e2, hnext, hsound, hpure⟩ :=
          pairLevel_tight_heap Sum256 rest (m ++ e1) hrest hlen2
        rw [map_value_append_heap m e1 rest hrestw] at hpure
        have hassoc : m ++ e1 ++ e2 = m ++ (e1 ++ e2) := List.append_assoc m e1 e2
        refine ⟨Heap.newNode (Heap.hashPair Sum256 m ls rs).1
            (Heap.Node.mk ls ll lr) (Heap.Node.mk rs rl rr) :: next, e1 ++ e2, ?_, ?_, ?_⟩
        · simp [Heap.pairLevel, Heap.Node.Hash, hmem, hnext]
        · intro t ht
          rw [← hassoc]
          rcases List.mem_cons.mp ht with rfl | ht
          · have hlw := within_append_heap m e1 _ (sound_within_heap m _ hl)
            have hrw := within_append_heap m e1 _ (sound_within_heap m _ hr)
            exact sound_append_heap (m ++ e1) e2 _ ⟨htight, hlw, hrw⟩
          · exact hsound t ht
        · have hlv := value_append_heap m (e1 ++ e2) _ (sound_within_heap m _ hl)
          have hrv := value_append_heap m (e1 ++ e2) _ (sound_within_heap m _ hr)
          have hroot : Heap.read (m ++ (e1 ++ e2)) (Heap.hashPair Sum256 m ls rs).1 =
              hashPair Sum256 (Heap.read m ls) (Heap.read m rs) := by
            rw [← hassoc, read_append_heap (m ++ e1) e2 _ htight.1]
            exact hread
          simp only [List.map_cons, pairLevel, Heap.Node.value, Node.Hash, hpure, hassoc]
          simp only [Heap.Node.value] at hlv hrv
          simp only [Heap.newNode, Heap.Node.value, hroot, newNode]
          simp only [Heap.Node.value, List.map_cons, Merkletree.Node.mk.injEq] at hlv hrv ⊢
          simp [hlv, hrv, hroot]

theorem padLevel_map_heap (f : Heap.Node → Node) (level padded : List Heap.Node)
    (h : Heap.padLevel level = .ok padded) :
    padLevel (level.map f) = .ok (padded.map f) := by
  unfold Heap.padLevel at h
  unfold padLevel
  simp only [List.length_map, List.getElem?_map]
  split at h
  · rename_i hodd
    split at h
    · simp at h
    · rename_i last hlast
      simp only [Except.ok.injEq] at h
      subst h
      simp [hodd, hlast]
  · rename_i hodd
    simp only [Except.ok.injEq] at h
    subst h
    simp [hodd]

theorem padLevel_sound_heap (m : Heap.Memory) (level : List Heap.Node)
    (hne : level ≠ []) (hall : ∀ t ∈ level, t.sound m) :
    ∃ padded, Heap.padLevel level = .ok padded ∧ (∀ t ∈ padded, t.sound m) ∧
      padded.length = level.length + level.length % 2 := by
  have hpos : 0 < level.length := List.length_pos.mpr hne
  by_cases hodd : level.length % 2 = 0
  · exact ⟨level, by simp [Heap.padLevel, hodd], hall, by omega⟩
  · have hlt : level.length - 1 < level.length := by omega
    refine ⟨level ++ [level[level.length - 1]], ?_, ?_, ?_⟩
    · simp [Heap.padLevel, hodd, List.getElem?_eq_getElem hlt]
    · intro t ht
      rcases List.mem_append.mp ht with ht | ht
      · exact hall t ht
      · simp only [List.mem_singleton] at ht
        subst ht
        exact hall _ (List.getElem_mem _)
    · simp only [List.length_append, List.length_singleton]
      omega

theorem buildLoop_tight_heap (Sum256 : Bytes → Bytes) :
    ∀ (n : Nat) (level : List Heap.Node) (m : Heap.Memory), level.length = n →
      level ≠ [] → (∀ t ∈ level, t.sound m) →
      ∃ root extra, Heap.buildLoop Sum256 m level = .ok ([root], m ++ extra) ∧
        buildLoop Sum256 (level.map (Heap.Node.value m)) =
          .ok [root.value (m ++ extra)] := by
  intro n
  induction n using Nat.strong_induction_on with
  | _ n ih =>
    intro level m hn hne hall
    have hpos : 0 < level.length := List.length_pos.mpr hne
    by_cases hone : level.length ≤ 1
    · obtain ⟨root, rfl⟩ : ∃ root, level = [root] := by
        match level, hne, hone with
        | [t], _, _ => exact ⟨t, rfl⟩
        | _ :: _ :: _, _, h => simp at h
      refine ⟨root, [], ?_, ?_⟩
      · simpa using buildLoop_done_heap Sum256 m [root] hone
      · simpa using buildLoop_done Sum256 [root.value m] (by simp)
    · have hgt : 1 < level.length := by omega
      obtain ⟨padded, hpad, hpadall, hpadlen⟩ := padLevel_sound_heap m level hne hall
      have heven : padded.length % 2 = 0 := by omega
      obtain ⟨next, e1, hpair, hnextall, hpure⟩ :=
        pairLevel_tight_heap Sum256 padded m hpadall heven
      have hnextlen := Heap.pairLevel_length_heap Sum256 padded m _ hpair
      simp only at hnextlen
      have hlt : next.length < n := by omega
      have hnextne : next ≠ [] := by
        intro h
        rw [h] at hnextlen
        simp at hnextlen
        omega
      obtain ⟨root, e2, hroot, hrootpure⟩ :=
        ih next.length hlt next (m ++ e1) rfl hnextne hnextall
      refine ⟨root, e1 ++ e2, ?_, ?_⟩
      · rw [buildLoop_step_heap Sum256 m level padded _ hgt hpad hpair, ← List.append_assoc]
        exact hroot
      · rw [buildLoop_step Sum256 _ _ _ (by simpa using hgt)
          (padLevel_map_heap (Heap.Node.value m) level padded hpad) hpure,
          ← List.append_assoc]
        exact hrootpure

/-- On leaf hashes without spare capacity the two levels agree: `Heap.BuildTree`
returns a root, it leaves the arrays of the memory it was given as they were,
and the tree the memory after the call gives is the tree `BuildTree` returns
on the bytes of the leaf hashes. -/
theorem BuildTree_tight_heap (Sum256 : Bytes → Bytes) (m : Heap.Memory)
    (hashes : List Heap.Slice) (hne : hashes ≠ [])
    (htight : ∀ s ∈ hashes, s.tight m) :
    ∃ root extra, Heap.BuildTree Sum256 m hashes = .ok (root, m ++ extra) ∧
      BuildTree Sum256 (hashes.map (Heap.read m)) = .ok (root.value (m ++ extra)) := by
  have hall : ∀ t ∈ hashes.map (fun hash => Heap.newNode hash Heap.Node.nil Heap.Node.nil),
      t.sound m := by
    intro t ht
    obtain ⟨s, hs, rfl⟩ := List.mem_map.mp ht
    exact ⟨htight s hs, trivial, trivial⟩
  have hne2 : hashes.map (fun hash => Heap.newNode hash Heap.Node.nil Heap.Node.nil) ≠ [] := by
    simpa using hne
  obtain ⟨root, extra, hroot, hpure⟩ := buildLoop_tight_heap Sum256 _ _ m rfl hne2 hall
  refine ⟨root, extra, ?_, ?_⟩
  · simp [Heap.BuildTree, hroot]
  · have hmap : (hashes.map (fun hash => Heap.newNode hash Heap.Node.nil Heap.Node.nil)).map
        (Heap.Node.value m) =
        (hashes.map (Heap.read m)).map (fun hash => newNode hash Node.nil Node.nil) := by
      simp [List.map_map, Function.comp_def, Heap.newNode, Heap.Node.value, newNode]
    rw [hmap] at hpure
    simp only [BuildTree, hpure]
    rfl

/-! ## The leaf sequence of the tree -/

theorem fillLevels_done (passes b : Nat) (s : List Bytes) (h : s.length ≤ b) :
    fillLevels passes b s = s := by
  cases passes with
  | zero => rfl
  | succ p => simp [fillLevels, Nat.not_lt.mpr h]

theorem levelLeaves_length (Sum256 : Bytes → Bytes) (j : Nat) (level : List Node)
    (hall : ∀ t ∈ level, Perfect Sum256 j t) :
    (levelLeaves level).length = level.length * 2 ^ j := by
  induction level with
  | nil => simp [levelLeaves]
  | cons t rest ih =>
    have ht := perfect_leaves_length Sum256 (hall t (by simp))
    have hrest := ih (fun u hu => hall u (by simp [hu]))
    simp only [levelLeaves, List.length_append, List.length_cons, ht, hrest]
    rw [Nat.add_mul, Nat.one_mul, Nat.add_comm]

theorem levelLeaves_drop_last (Sum256 : Bytes → Bytes) (j : Nat) :
    ∀ (level : List Node) (last : Node), (∀ t ∈ level, Perfect Sum256 j t) →
      level[level.length - 1]? = some last →
      (levelLeaves level).drop ((levelLeaves level).length - 2 ^ j) = leafHashes last
  | [], _, _, h => by simp at h
  | [t], last, hall, h => by
    simp only [List.length_singleton, Nat.sub_self, List.getElem?_cons_zero,
      Option.some.injEq] at h
    subst h
    have ht := perfect_leaves_length Sum256 (hall t (by simp))
    simp [levelLeaves, ht]
  | t :: u :: rest, last, hall, h => by
    have ht := perfect_leaves_length Sum256 (hall t (by simp))
    have hall2 : ∀ v ∈ u :: rest, Perfect Sum256 j v := fun v hv => hall v (by simp [hv])
    have hlen2 := levelLeaves_length Sum256 j (u :: rest) hall2
    have h2 : (u :: rest)[(u :: rest).length - 1]? = some last := by
      simpa using h
    have ih := levelLeaves_drop_last Sum256 j (u :: rest) last hall2 h2
    have hge : 2 ^ j ≤ (levelLeaves (u :: rest)).length := by
      rw [hlen2]
      simp only [List.length_cons]
      exact Nat.le_mul_of_pos_left _ (by omega)
    have hidx : (levelLeaves (t :: u :: rest)).length - 2 ^ j =
        (leafHashes t).length + ((levelLeaves (u :: rest)).length - 2 ^ j) := by
      have : levelLeaves (t :: u :: rest) = leafHashes t ++ levelLeaves (u :: rest) := rfl
      rw [this, List.length_append]
      omega
    have hsplit : levelLeaves (t :: u :: rest) = leafHashes t ++ levelLeaves (u :: rest) :=
      rfl
    rw [hidx, hsplit, List.drop_append]
    exact ih

theorem levelLeaves_padLevel (Sum256 : Bytes → Bytes) (j : Nat) (level padded : List Node)
    (hall : ∀ t ∈ level, Perfect Sum256 j t) (hpad : padLevel level = .ok padded) :
    levelLeaves padded = padTail (2 ^ j) (levelLeaves level) := by
  have hlen := levelLeaves_length Sum256 j level hall
  have hpos : 0 < 2 ^ j := Nat.pow_pos (by decide)
  have hdiv : (levelLeaves level).length / 2 ^ j = level.length := by
    rw [hlen]
    exact Nat.mul_div_cancel _ hpos
  unfold padLevel at hpad
  unfold padTail
  rw [hdiv]
  split at hpad
  · rename_i hodd
    split at hpad
    · simp at hpad
    · rename_i last hlast
      simp only [Except.ok.injEq] at hpad
      subst hpad
      rw [if_pos hodd, levelLeaves_append,
        levelLeaves_drop_last Sum256 j level last hall hlast]
      simp [levelLeaves]
  · rename_i hodd
    simp only [Except.ok.injEq] at hpad
    subst hpad
    rw [if_neg hodd]

theorem buildLoop_fill (Sum256 : Bytes → Bytes) :
    ∀ (n : Nat) (level : List Node) (j : Nat) (root : Node) (passes : Nat),
      level.length = n → level ≠ [] → (∀ t ∈ level, Perfect Sum256 j t) →
      buildLoop Sum256 level = .ok [root] → level.length ≤ passes →
      leafHashes root = fillLevels passes (2 ^ j) (levelLeaves level) := by
  intro n
  induction n using Nat.strong_induction_on with
  | _ n ih =>
    intro level j root passes hn hne hall hroot hpasses
    have hpos : 0 < level.length := List.length_pos.mpr hne
    have hlen := levelLeaves_length Sum256 j level hall
    have hpow : 0 < 2 ^ j := Nat.pow_pos (by decide)
    by_cases hone : level.length ≤ 1
    · rw [buildLoop_done Sum256 _ hone] at hroot
      simp only [Except.ok.injEq] at hroot
      subst hroot
      have h1 : (levelLeaves [root]).length ≤ 2 ^ j := by
        rw [hlen]
        simp
      rw [fillLevels_done passes (2 ^ j) _ h1]
      simp [levelLeaves]
    · have hgt : 1 < level.length := by omega
      obtain ⟨padded, hpad, hpadall, _, hpadlen⟩ := padLevel_perfect Sum256 j level hall
      have heven : padded.length % 2 = 0 := by omega
      obtain ⟨next, hpair, hnextall, hnextleaves, hnextlen⟩ :=
        pairLevel_perfect Sum256 j padded hpadall heven
      have hlt : next.length < n := by omega
      have hnextne : next ≠ [] := by
        intro h
        rw [h] at hnextlen
        simp at hnextlen
        omega
      rw [buildLoop_step Sum256 level padded next hgt hpad hpair] at hroot
      obtain ⟨p, rfl⟩ : ∃ p, passes = p + 1 := ⟨passes - 1, by omega⟩
      have hnextp : next.length ≤ p := by omega
      have hih := ih next.length hlt next (j + 1) root p rfl hnextne hnextall hroot hnextp
      have hlong : 2 ^ j < (levelLeaves level).length := by
        rw [hlen]
        calc 2 ^ j = 1 * 2 ^ j := (Nat.one_mul _).symm
          _ < level.length * 2 ^ j := Nat.mul_lt_mul_of_pos_right hgt hpow
      rw [hih, hnextleaves, levelLeaves_padLevel Sum256 j level padded hall hpad]
      simp only [fillLevels, hlong, if_true]
      rw [Nat.pow_succ, Nat.mul_comm]

theorem buildTree_leaves_eq (Sum256 : Bytes → Bytes) (hs : List Bytes) (root : Node)
    (hbuild : BuildTree Sum256 hs = .ok root) :
    leafHashes root = paddedLeaves hs := by
  have hne := buildTree_ne_nil Sum256 hs root hbuild
  have hall : ∀ t ∈ hs.map (fun hash => newNode hash Node.nil Node.nil),
      Perfect Sum256 0 t := by
    intro t ht
    obtain ⟨h, _, rfl⟩ := List.mem_map.mp ht
    exact Perfect.leaf h
  have hne2 : hs.map (fun hash => newNode hash Node.nil Node.nil) ≠ [] := by
    simpa using hne
  obtain ⟨root2, hloop, _, _⟩ := buildLoop_perfect Sum256 _ _ 0 rfl hne2 hall
  have hroot : BuildTree Sum256 hs = .ok root2 := by
    simp [BuildTree, hloop]
  rw [hbuild] at hroot
  cases hroot
  have h := buildLoop_fill Sum256 _ _ 0 root hs.length rfl hne2 hall hloop (by simp)
  rw [levelLeaves_newLeaves] at h
  simpa [paddedLeaves] using h

theorem isNil_value_heap (m : Heap.Memory) (t : Heap.Node) :
    (t.value m).isNil = t.isNil := by
  cases t <;> rfl

/-- `Heap.findHash` only reads the memory: on every memory its result is the
result of `findHash` on the tree and the target the memory gives. -/
theorem findHash_value_heap (m : Heap.Memory) (hash : Heap.Slice) :
    ∀ (t : Heap.Node) (proof : Heap.MerkleProof),
      (Heap.findHash m hash t proof).map
          (fun r => (r.1, r.2.map (Heap.ProofSibling.value m))) =
        findHash (Heap.read m hash) (t.value m) (proof.map (Heap.ProofSibling.value m))
  | .nil, proof => rfl
  | .mk s l r, proof => by
    have ihl := findHash_value_heap m hash l proof
    simp only [Heap.findHash, findHash, Heap.Node.value, isNil_value_heap]
    by_cases hleaf : (l.isNil && r.isNil) = true
    · simp only [hleaf, if_true]
      rfl
    · simp only [hleaf, if_false, Bool.false_eq_true]
      cases hl : Heap.findHash m hash l proof with
      | error e =>
        rw [hl] at ihl
        simp only [Except.map] at ihl
        simp only [← ihl]
        rfl
      | ok resl =>
        obtain ⟨foundl, proof1⟩ := resl
        rw [hl] at ihl
        simp only [Except.map] at ihl
        simp only [← ihl]
        cases foundl with
        | true =>
          cases r with
          | nil => rfl
          | mk rs rl rr =>
            simp [Heap.Node.Hash, Node.Hash, Heap.Node.value, Except.map,
              Heap.ProofSibling.value]
        | false =>
          have ihr := findHash_value_heap m hash r proof1
          simp only [Bool.false_eq_true, if_false]
          cases hr : Heap.findHash m hash r proof1 with
          | error e =>
            rw [hr] at ihr
            simp only [Except.map] at ihr
            simp only [← ihr]
            rfl
          | ok resr =>
            obtain ⟨foundr, proof2⟩ := resr
            rw [hr] at ihr
            simp only [Except.map] at ihr
            simp only [← ihr]
            cases foundr with
            | true =>
              cases l with
              | nil => rfl
              | mk ls ll lr =>
                simp [Heap.Node.Hash, Node.Hash, Heap.Node.value, Except.map,
                  Heap.ProofSibling.value]
            | false => rfl

/-- `Heap.CreateMerkleProof` on every memory: its result is the result of
`CreateMerkleProof` on the tree and the target the memory gives. -/
theorem CreateMerkleProof_value_heap (m : Heap.Memory) (root : Heap.Node)
    (hash : Heap.Slice) :
    (Heap.CreateMerkleProof m root hash).map
        (fun r => (r.1.map (Heap.ProofSibling.value m), r.2)) =
      CreateMerkleProof (root.value m) (Heap.read m hash) := by
  have h := findHash_value_heap m hash root []
  simp only [Heap.CreateMerkleProof, CreateMerkleProof]
  cases hf : Heap.findHash m hash root [] with
  | error e =>
    rw [hf] at h
    simp only [Except.map, List.map_nil] at h
    simp only [← h]
    rfl
  | ok res =>
    obtain ⟨found, proof⟩ := res
    rw [hf] at h
    simp only [Except.map, List.map_nil] at h
    simp only [← h]
    cases found <;> rfl

theorem verifyFold_tight_heap (Sum256 : Bytes → Bytes) :
    ∀ (proof : Heap.MerkleProof) (m : Heap.Memory) (cur : Heap.Slice),
      cur.tight m → (∀ s ∈ proof, s.Hash.tight m) →
      ∃ extra,
        (proof.foldl (Heap.verifyStep Sum256) (cur, m)).2 = m ++ extra ∧
        Heap.read (m ++ extra) (proof.foldl (Heap.verifyStep Sum256) (cur, m)).1 =
          (proof.map (Heap.ProofSibling.value m)).foldl (verifyStep Sum256)
            (Heap.read m cur)
  | [], m, cur, _, _ => ⟨[], by simp, by simp⟩
  | s :: rest, m, cur, hcur, hsteps => by
    have hs := hsteps s (by simp)
    have hstep : ∃ e1, (Heap.verifyStep Sum256 (cur, m) s).2 = m ++ e1 ∧
        (Heap.verifyStep Sum256 (cur, m) s).1.tight (m ++ e1) ∧
        Heap.read (m ++ e1) (Heap.verifyStep Sum256 (cur, m) s).1 =
          verifyStep Sum256 (Heap.read m cur) (Heap.ProofSibling.value m s) := by
      cases hside : s.IsLeft with
      | true =>
        obtain ⟨e1, h1, h2, h3⟩ := hashPair_tight_heap Sum256 m s.Hash cur hs.2
        exact ⟨e1, by simp [Heap.verifyStep, hside, h1],
          by simpa [Heap.verifyStep, hside] using h2,
          by simpa [Heap.verifyStep, verifyStep, hside, Heap.ProofSibling.value] using h3⟩
      | false =>
        obtain ⟨e1, h1, h2, h3⟩ := hashPair_tight_heap Sum256 m cur s.Hash hcur.2
        exact ⟨e1, by simp [Heap.verifyStep, hside, h1],
          by simpa [Heap.verifyStep, hside] using h2,
          by simpa [Heap.verifyStep, verifyStep, hside, Heap.ProofSibling.value] using h3⟩
    obtain ⟨e1, hm1, htight1, hread1⟩ := hstep
    have hrest : ∀ u ∈ rest, u.Hash.tight (m ++ e1) := by
      intro u hu
      have := hsteps u (by simp [hu])
      exact ⟨by simp only [List.length_append]; have := this.1; omega, this.2⟩
    have hstate : Heap.verifyStep Sum256 (cur, m) s =
        ((Heap.verifyStep Sum256 (cur, m) s).1, m ++ e1) := by
      rw [← hm1]
    obtain ⟨e2, hm2, hread2⟩ := verifyFold_tight_heap Sum256 rest (m ++ e1)
      (Heap.verifyStep Sum256 (cur, m) s).1 htight1 hrest
    have hmap : rest.map (Heap.ProofSibling.value (m ++ e1)) =
        rest.map (Heap.ProofSibling.value m) := by
      apply List.map_congr_left
      intro u hu
      simp only [Heap.ProofSibling.value]
      rw [read_append_heap m e1 u.Hash (hsteps u (by simp [hu])).1]
    refine ⟨e1 ++ e2, ?_, ?_⟩
    · simp only [List.foldl_cons]
      rw [hstate, hm2, List.append_assoc]
    · simp only [List.foldl_cons, List.map_cons]
      rw [hstate, ← List.append_assoc, hread2, hmap, hread1]

/-- On arguments without spare capacity the two levels agree:
`Heap.VerifyMerkleProof` returns what `VerifyMerkleProof` returns on the bytes
of its arguments, and it leaves the arrays of the memory it was given as they
were. -/
theorem VerifyMerkleProof_tight_heap (Sum256 : Bytes → Bytes) (m : Heap.Memory)
    (rootHash hash : Heap.Slice) (proof : Heap.MerkleProof)
    (hroot : rootHash.arr < m.length) (hhash : hash.tight m)
    (hsteps : ∀ s ∈ proof, s.Hash.tight m) :
    ∃ extra, Heap.VerifyMerkleProof Sum256 m rootHash hash proof =
      (VerifyMerkleProof Sum256 (Heap.read m rootHash) (Heap.read m hash)
        (proof.map (Heap.ProofSibling.value m)), m ++ extra) := by
  obtain ⟨extra, hm, hread⟩ := verifyFold_tight_heap Sum256 proof m hash hhash hsteps
  refine ⟨extra, ?_⟩
  simp only [Heap.VerifyMerkleProof, VerifyMerkleProof, hm, hread,
    read_append_heap m extra rootHash hroot]

theorem buildLoop_two_heap (Sum256 : Bytes → Bytes) (m : Heap.Memory)
    (s1 s2 : Heap.Slice) (l1 r1 l2 r2 : Heap.Node) (h : s1.cap = s1.len) :
    ∃ top extra,
      Heap.buildLoop Sum256 m [Heap.Node.mk s1 l1 r1, Heap.Node.mk s2 l2 r2] =
        .ok ([Heap.Node.mk top (Heap.Node.mk s1 l1 r1) (Heap.Node.mk s2 l2 r2)],
          m ++ extra) ∧
      Heap.read (m ++ extra) top = hashPair Sum256 (Heap.read m s1) (Heap.read m s2) := by
  obtain ⟨extra, hmem, _, hread⟩ := hashPair_tight_heap Sum256 m s1 s2 h
  refine ⟨(Heap.hashPair Sum256 m s1 s2).1, extra, ?_, hread⟩
  simp [buildLoop_unfold_heap, buildLoop_single_heap, Heap.padLevel, Heap.pairLevel,
    Heap.Node.Hash, Heap.newNode, hmem]

/-! ## The claims that meet the write of `append` -/

/-- C1, the behaviour of the code on leaf hashes that share a backing array:
with the array `2, 1, 3` and the leaves `buf[0:1]`, `buf[2:3]`, `buf[1:2]`,
which hold `2`, `3`, `1`, the first `hashPair` of `BuildTree` stores `3` over
the `1`; whatever the digest, the leaves of the tree hold `2, 3, 3, 3`, and
`CreateMerkleProof` on a hash `1`, which occurs in the input, returns the
hash-not-found error. -/
theorem roundtrip_shared_array_not_found (Sum256 : Bytes → Bytes) :
    (([Heap.Slice.mk 0 0 1 3, Heap.Slice.mk 0 2 1 1, Heap.Slice.mk 0 1 1 2].map
        (Heap.read [[2, 1, 3], [1]]) = [[2], [3], [1]]) ∧
      Heap.read [[2, 1, 3], [1]] (Heap.Slice.mk 1 0 1 1) = [1]) ∧
    ∃ root m1,
      Heap.BuildTree Sum256 [[2, 1, 3], [1]]
          [Heap.Slice.mk 0 0 1 3, Heap.Slice.mk 0 2 1 1, Heap.Slice.mk 0 1 1 2] =
        .ok (root, m1) ∧
      leafHashes (root.value m1) = [[2], [3], [3], [3]] ∧
      Heap.read m1 (Heap.Slice.mk 1 0 1 1) = [1] ∧
      Heap.CreateMerkleProof m1 root (Heap.Slice.mk 1 0 1 1) =
        .ok ([], some hashNotFound) := by
  obtain ⟨top, extra, hloop, hread⟩ := buildLoop_two_heap Sum256
    [[2, 3, 3], [1], Sum256 [2, 3], Sum256 [3, 3]]
    ⟨2, 0, (Sum256 [2, 3]).length, (Sum256 [2, 3]).length⟩
    ⟨3, 0, (Sum256 [3, 3]).length, (Sum256 [3, 3]).length⟩
    (Heap.Node.mk ⟨0, 0, 1, 3⟩ Heap.Node.nil Heap.Node.nil)
    (Heap.Node.mk ⟨0, 2, 1, 1⟩ Heap.Node.nil Heap.Node.nil)
    (Heap.Node.mk ⟨0, 1, 1, 2⟩ Heap.Node.nil Heap.Node.nil)
    (Heap.Node.mk ⟨0, 1, 1, 2⟩ Heap.Node.nil Heap.Node.nil) rfl
  refine ⟨by decide, Heap.Node.mk top
      (Heap.Node.mk ⟨2, 0, (Sum256 [2, 3]).length, (Sum256 [2, 3]).length⟩
        (Heap.Node.mk ⟨0, 0, 1, 3⟩ Heap.Node.nil Heap.Node.nil)
        (Heap.Node.mk ⟨0, 2, 1, 1⟩ Heap.Node.nil Heap.Node.nil))
      (Heap.Node.mk ⟨3, 0, (Sum256 [3, 3]).length, (Sum256 [3, 3]).length⟩
        (Heap.Node.mk ⟨0, 1, 1, 2⟩ Heap.Node.nil Heap.Node.nil)
        (Heap.Node.mk ⟨0, 1, 1, 2⟩ Heap.Node.nil Heap.Node.nil)),
    [[2, 3, 3], [1], Sum256 [2, 3], Sum256 [3, 3]] ++ extra, ?_, ?_, ?_, ?_⟩
  · simp [Heap.BuildTree, buildLoop_unfold_heap, Heap.padLevel,
      Heap.pairLevel, Heap.Node.Hash, Heap.newNode, Heap.hashPair, Heap.goAppend,
      Heap.read, Heap.write, hloop]
  · simp [Heap.Node.value, leafHashes, Node.isNil, Heap.read]
  · simp [Heap.read]
  · simp [Heap.CreateMerkleProof, Heap.findHash, Heap.Node.isNil, Heap.read]

/-- C3, the behaviour of the code on leaf hashes that share a backing array:
with the array `7, 8, 9` and the three leaves `buf[0:1]`, `buf[2:3]`,
`buf[1:2]`, which hold `h1 = 7`, `h2 = 9`, `h3 = 8`, the hash of the root is,
whatever the digest, `hashPair (hashPair h1 h2) (hashPair h2 h2)`: the third
leaf is overwritten with `h2` before it is hashed.  For the sample digest that
is not `hashPair (hashPair h1 h2) (hashPair h3 h3)`. -/
theorem three_leaves_shared_array_root (Sum256 : Bytes → Bytes) :
    [Heap.Slice.mk 0 0 1 3, Heap.Slice.mk 0 2 1 1, Heap.Slice.mk 0 1 1 2].map
        (Heap.read [[7, 8, 9]]) = [[7], [9], [8]] ∧
    (∃ root m1,
      Heap.BuildTree Sum256 [[7, 8, 9]]
          [Heap.Slice.mk 0 0 1 3, Heap.Slice.mk 0 2 1 1, Heap.Slice.mk 0 1 1 2] =
        .ok (root, m1) ∧
      (root.value m1).Hash =
        .ok (hashPair Sum256 (hashPair Sum256 [7] [9]) (hashPair Sum256 [9] [9]))) ∧
    hashPair sampleDigest (hashPair sampleDigest [7] [9]) (hashPair sampleDigest [9] [9]) ≠
      hashPair sampleDigest (hashPair sampleDigest [7] [9])
        (hashPair sampleDigest [8] [8]) := by
  obtain ⟨top, extra, hloop, hread⟩ := buildLoop_two_heap Sum256
    [[7, 9, 9], Sum256 [7, 9], Sum256 [9, 9]]
    ⟨1, 0, (Sum256 [7, 9]).length, (Sum256 [7, 9]).length⟩
    ⟨2, 0, (Sum256 [9, 9]).length, (Sum256 [9, 9]).length⟩
    (Heap.Node.mk ⟨0, 0, 1, 3⟩ Heap.Node.nil Heap.Node.nil)
    (Heap.Node.mk ⟨0, 2, 1, 1⟩ Heap.Node.nil Heap.Node.nil)
    (Heap.Node.mk ⟨0, 1, 1, 2⟩ Heap.Node.nil Heap.Node.nil)
    (Heap.Node.mk ⟨0, 1, 1, 2⟩ Heap.Node.nil Heap.Node.nil) rfl
  refine ⟨by decide, ⟨Heap.Node.mk top
      (Heap.Node.mk ⟨1, 0, (Sum256 [7, 9]).length, (Sum256 [7, 9]).length⟩
        (Heap.Node.mk ⟨0, 0, 1, 3⟩ Heap.Node.nil Heap.Node.nil)
        (Heap.Node.mk ⟨0, 2, 1, 1⟩ Heap.Node.nil Heap.Node.nil))
      (Heap.Node.mk ⟨2, 0, (Sum256 [9, 9]).length, (Sum256 [9, 9]).length⟩
        (Heap.Node.mk ⟨0, 1, 1, 2⟩ Heap.Node.nil Heap.Node.nil)
        (Heap.Node.mk ⟨0, 1, 1, 2⟩ Heap.Node.nil Heap.Node.nil)),
    [[7, 9, 9], Sum256 [7, 9], Sum256 [9, 9]] ++ extra, ?_, ?_⟩, by decide⟩
  · simp [Heap.BuildTree, buildLoop_unfold_heap, Heap.padLevel,
      Heap.pairLevel, Heap.Node.Hash, Heap.newNode, Heap.hashPair, Heap.goAppend,
      Heap.read, Heap.write, hloop]
  · simp only [Heap.Node.value, Node.Hash, hread]
    simp [Heap.read, hashPair]

/-- C9, the behaviour of the code when the hash has spare capacity: with the
array `1, 1, 2`, the hash `buf[0:1]`, the root hash `buf[1:3]`, a proof of one
step whose sibling holds `2` and is on the right, and the sample digest, the
replay of the specification on the bytes of the three arguments gives true,
while the code stores the sibling behind the hash, over the first byte of the
root hash, and returns false. -/
theorem verify_shared_array_false :
    verifyReplay sampleDigest (Heap.read [[1, 1, 2], [2]] (Heap.Slice.mk 0 1 2 2))
        (Heap.read [[1, 1, 2], [2]] (Heap.Slice.mk 0 0 1 3))
        [ProofSibling.mk (Heap.read [[1, 1, 2], [2]] (Heap.Slice.mk 1 0 1 1)) false] =
      true ∧
    Heap.VerifyMerkleProof sampleDigest [[1, 1, 2], [2]] (Heap.Slice.mk 0 1 2 2)
        (Heap.Slice.mk 0 0 1 3) [Heap.ProofSibling.mk (Heap.Slice.mk 1 0 1 1) false] =
      (false, [[1, 2, 2], [2], [1, 2]]) := by
  decide

/-- C16, the behaviour of the code on two equal leaf hashes that share a
backing array: with the array `1, 2, 0, 1, 2` and the leaves `buf[0:2]` and
`buf[3:5]`, which both hold `t = 1, 2`, `hashPair` stores `1, 2` behind the
left leaf and the right leaf then holds `2, 2`; whatever the digest, the proof
`CreateMerkleProof` returns for `t` has the single step
`(2 2, IsLeft = false)`, not `(t, IsLeft = false)`. -/
theorem createProof_twin_leaves_shared_array (Sum256 : Bytes → Bytes) :
    (([Heap.Slice.mk 0 0 2 5, Heap.Slice.mk 0 3 2 2].map
        (Heap.read [[1, 2, 0, 1, 2], [1, 2]]) = [[1, 2], [1, 2]]) ∧
      Heap.read [[1, 2, 0, 1, 2], [1, 2]] (Heap.Slice.mk 1 0 2 2) = [1, 2]) ∧
    ∃ root m1 step,
      Heap.BuildTree Sum256 [[1, 2, 0, 1, 2], [1, 2]]
          [Heap.Slice.mk 0 0 2 5, Heap.Slice.mk 0 3 2 2] = .ok (root, m1) ∧
      Heap.CreateMerkleProof m1 root (Heap.Slice.mk 1 0 2 2) =
        .ok ([Heap.ProofSibling.mk step false], none) ∧
      Heap.read m1 step = [2, 2] ∧
      Heap.read m1 (Heap.Slice.mk 1 0 2 2) = [1, 2] := by
  refine ⟨by decide,
    Heap.Node.mk ⟨2, 0, (Sum256 [1, 2, 1, 2]).length, (Sum256 [1, 2, 1, 2]).length⟩
      (Heap.Node.mk ⟨0, 0, 2, 5⟩ Heap.Node.nil Heap.Node.nil)
      (Heap.Node.mk ⟨0, 3, 2, 2⟩ Heap.Node.nil Heap.Node.nil),
    [[1, 2, 1, 2, 2], [1, 2], Sum256 [1, 2, 1, 2]], ⟨0, 3, 2, 2⟩, ?_, ?_, ?_, ?_⟩
  · simp [Heap.BuildTree, buildLoop_unfold_heap, buildLoop_single_heap, Heap.padLevel,
      Heap.pairLevel, Heap.Node.Hash, Heap.newNode, Heap.hashPair, Heap.goAppend,
      Heap.read, Heap.write]
  · simp [Heap.CreateMerkleProof, Heap.findHash, Heap.Node.isNil, Heap.read,
      Heap.Node.Hash]
  · simp [Heap.read]
  · simp [Heap.read]

/-- C17, the behaviour of the code on leaf hashes that share a backing array:
with the array `1, 2, 3, 4` and the leaves `buf[0:1]` and `buf[2:4]`, the root
gets, whatever the digest, the digest of `1, 3, 4`, and the store of `hashPair`
leaves `4, 4` in the right leaf, so that `hashPair` of the hashes of the
children is the digest of `1, 4, 4`.  For the sample digest the two differ:
the hash of the root is not `hashPair` of the hashes of its children. -/
theorem node_hash_shared_array (Sum256 : Bytes → Bytes) :
    (∃ root m1,
      Heap.BuildTree Sum256 [[1, 2, 3, 4]]
          [Heap.Slice.mk 0 0 1 4, Heap.Slice.mk 0 2 2 2] = .ok (root, m1) ∧
      root.value m1 =
        Node.mk (Sum256 [1, 3, 4]) (Node.mk [1] Node.nil Node.nil)
          (Node.mk [4, 4] Node.nil Node.nil)) ∧
    hashPair Sum256 [1] [4, 4] = Sum256 [1, 4, 4] ∧
    sampleDigest [1, 3, 4] ≠ hashPair sampleDigest [1] [4, 4] := by
  refine ⟨⟨Heap.Node.mk ⟨1, 0, (Sum256 [1, 3, 4]).length, (Sum256 [1, 3, 4]).length⟩
      (Heap.Node.mk ⟨0, 0, 1, 4⟩ Heap.Node.nil Heap.Node.nil)
      (Heap.Node.mk ⟨0, 2, 2, 2⟩ Heap.Node.nil Heap.Node.nil),
    [[1, 3, 4, 4], Sum256 [1, 3, 4]], ?_, ?_⟩, rfl, by decide⟩
  · simp [Heap.BuildTree, buildLoop_unfold_heap, buildLoop_single_heap, Heap.padLevel,
      Heap.pairLevel, Heap.Node.Hash, Heap.newNode, Heap.hashPair, Heap.goAppend,
      Heap.read, Heap.write]
  · simp [Heap.Node.value, Heap.read]

/-- C18, the behaviour of the code when the added copy of the last hash lies in
the spare capacity of the first leaf: with the array `1, 3`, `a = buf[0:1]`
and `x = buf[1:2]`, and hashes `2` and `3` in arrays of their own, the input
`a, 2, 3` is given the root hash `hashPair (hashPair 1 2) (hashPair 3 3)` and
the input `a, 2, 3, x`, where `x` holds `3` as the last element does, the root
hash `hashPair (hashPair 1 2) (hashPair 3 2)`, whatever the digest: in the
second run `hashPair` stores `2` over `x` before `x` is hashed.  For the sample
digest the two root hashes differ. -/
theorem self_pairing_shared_array (Sum256 : Bytes → Bytes) :
    (Heap.read [[1, 3], [2], [3]] (Heap.Slice.mk 0 1 1 1) =
      Heap.read [[1, 3], [2], [3]] (Heap.Slice.mk 2 0 1 1)) ∧
    (∃ root m1 root2 m2,
      Heap.BuildTree Sum256 [[1, 3], [2], [3]]
          [Heap.Slice.mk 0 0 1 2, Heap.Slice.mk 1 0 1 1, Heap.Slice.mk 2 0 1 1] =
        .ok (root, m1) ∧
      Heap.BuildTree Sum256 [[1, 3], [2], [3]]
          ([Heap.Slice.mk 0 0 1 2, Heap.Slice.mk 1 0 1 1, Heap.Slice.mk 2 0 1 1] ++
            [Heap.Slice.mk 0 1 1 1]) = .ok (root2, m2) ∧
      (root.value m1).Hash =
        .ok (hashPair Sum256 (hashPair Sum256 [1] [2]) (hashPair Sum256 [3] [3])) ∧
      (root2.value m2).Hash =
        .ok (hashPair Sum256 (hashPair Sum256 [1] [2]) (hashPair Sum256 [3] [2]))) ∧
    hashPair sampleDigest (hashPair sampleDigest [1] [2]) (hashPair sampleDigest [3] [3]) ≠
      hashPair sampleDigest (hashPair sampleDigest [1] [2])
        (hashPair sampleDigest [3] [2]) := by
  obtain ⟨top, extra, hloop, hread⟩ := buildLoop_two_heap Sum256
    [[1, 2], [2], [3], Sum256 [1, 2], [3, 3], Sum256 [3, 3]]
    ⟨3, 0, (Sum256 [1, 2]).length, (Sum256 [1, 2]).length⟩
    ⟨5, 0, (Sum256 [3, 3]).length, (Sum256 [3, 3]).length⟩
    (Heap.Node.mk ⟨0, 0, 1, 2⟩ Heap.Node.nil Heap.Node.nil)
    (Heap.Node.mk ⟨1, 0, 1, 1⟩ Heap.Node.nil Heap.Node.nil)
    (Heap.Node.mk ⟨2, 0, 1, 1⟩ Heap.Node.nil Heap.Node.nil)
    (Heap.Node.mk ⟨2, 0, 1, 1⟩ Heap.Node.nil Heap.Node.nil) rfl
  obtain ⟨top2, extra2, hloop2, hread2⟩ := buildLoop_two_heap Sum256
    [[1, 2], [2], [3], Sum256 [1, 2], [3, 2], Sum256 [3, 2]]
    ⟨3, 0, (Sum256 [1, 2]).length, (Sum256 [1, 2]).length⟩
    ⟨5, 0, (Sum256 [3, 2]).length, (Sum256 [3, 2]).length⟩
    (Heap.Node.mk ⟨0, 0, 1, 2⟩ Heap.Node.nil Heap.Node.nil)
    (Heap.Node.mk ⟨1, 0, 1, 1⟩ Heap.Node.nil Heap.Node.nil)
    (Heap.Node.mk ⟨2, 0, 1, 1⟩ Heap.Node.nil Heap.Node.nil)
    (Heap.Node.mk ⟨0, 1, 1, 1⟩ Heap.Node.nil Heap.Node.nil) rfl
  refine ⟨by decide, ⟨Heap.Node.mk top
      (Heap.Node.mk ⟨3, 0, (Sum256 [1, 2]).length, (Sum256 [1, 2]).length⟩
        (Heap.Node.mk ⟨0, 0, 1, 2⟩ Heap.Node.nil Heap.Node.nil)
        (Heap.Node.mk ⟨1, 0, 1, 1⟩ Heap.Node.nil Heap.Node.nil))
      (Heap.Node.mk ⟨5, 0, (Sum256 [3, 3]).length, (Sum256 [3, 3]).length⟩
        (Heap.Node.mk ⟨2, 0, 1, 1⟩ Heap.Node.nil Heap.Node.nil)
        (Heap.Node.mk ⟨2, 0, 1, 1⟩ Heap.Node.nil Heap.Node.nil)),
    [[1, 2], [2], [3], Sum256 [1, 2], [3, 3], Sum256 [3, 3]] ++ extra,
    Heap.Node.mk top2
      (Heap.Node.mk ⟨3, 0, (Sum256 [1, 2]).length, (Sum256 [1, 2]).length⟩
        (Heap.Node.mk ⟨0, 0, 1, 2⟩ Heap.Node.nil Heap.Node.nil)
        (Heap.Node.mk ⟨1, 0, 1, 1⟩ Heap.Node.nil Heap.Node.nil))
      (Heap.Node.mk ⟨5, 0, (Sum256 [3, 2]).length, (Sum256 [3, 2]).length⟩
        (Heap.Node.mk ⟨2, 0, 1, 1⟩ Heap.Node.nil Heap.Node.nil)
        (Heap.Node.mk ⟨0, 1, 1, 1⟩ Heap.Node.nil Heap.Node.nil)),
    [[1, 2], [2], [3], Sum256 [1, 2], [3, 2], Sum256 [3, 2]] ++ extra2,
    ?_, ?_, ?_, ?_⟩, by decide⟩
  · simp [Heap.BuildTree, buildLoop_unfold_heap, Heap.padLevel,
      Heap.pairLevel, Heap.Node.Hash, Heap.newNode, Heap.hashPair, Heap.goAppend,
      Heap.read, Heap.write, hloop]
  · simp [Heap.BuildTree, buildLoop_unfold_heap, Heap.padLevel,
      Heap.pairLevel, Heap.Node.Hash, Heap.newNode, Heap.hashPair, Heap.goAppend,
      Heap.read, Heap.write, hloop2]
  · simp only [Heap.Node.value, Node.Hash, hread]
    simp [Heap.read, hashPair]
  · simp only [Heap.Node.value, Node.Hash, hread2]
    simp [Heap.read, hashPair]

/-- C20, the behaviour of the code on leaf hashes that share a backing array:
with the array `5, 0, 6, 7` and the leaves `buf[0:1]` and `buf[2:4]`, which
hold `5` and `6, 7`, the store of `hashPair` leaves `7, 7` in the right leaf,
and, whatever the digest, `CreateMerkleProof` on a hash `6, 7`, which occurs in
the input of length 2, returns the nil proof and the hash-not-found error, not
a proof of `ceil (log2 2) = 1` step. -/
theorem proof_length_shared_array (Sum256 : Bytes → Bytes) :
    (([Heap.Slice.mk 0 0 1 4, Heap.Slice.mk 0 2 2 2].map
        (Heap.read [[5, 0, 6, 7], [6, 7]]) = [[5], [6, 7]]) ∧
      Heap.read [[5, 0, 6, 7], [6, 7]] (Heap.Slice.mk 1 0 2 2) = [6, 7] ∧
      Nat.clog 2 [Heap.Slice.mk 0 0 1 4, Heap.Slice.mk 0 2 2 2].length = 1) ∧
    ∃ root m1,
      Heap.BuildTree Sum256 [[5, 0, 6, 7], [6, 7]]
          [Heap.Slice.mk 0 0 1 4, Heap.Slice.mk 0 2 2 2] = .ok (root, m1) ∧
      leafHashes (root.value m1) = [[5], [7, 7]] ∧
      Heap.read m1 (Heap.Slice.mk 1 0 2 2) = [6, 7] ∧
      Heap.CreateMerkleProof m1 root (Heap.Slice.mk 1 0 2 2) =
        .ok ([], some hashNotFound) := by
  refine ⟨⟨by decide, by decide, by simp [Nat.clog]⟩,
    Heap.Node.mk ⟨2, 0, (Sum256 [5, 6, 7]).length, (Sum256 [5, 6, 7]).length⟩
      (Heap.Node.mk ⟨0, 0, 1, 4⟩ Heap.Node.nil Heap.Node.nil)
      (Heap.Node.mk ⟨0, 2, 2, 2⟩ Heap.Node.nil Heap.Node.nil),
    [[5, 6, 7, 7], [6, 7], Sum256 [5, 6, 7]], ?_, ?_, ?_, ?_⟩
  · simp [Heap.BuildTree, buildLoop_unfold_heap, buildLoop_single_heap, Heap.padLevel,
      Heap.pairLevel, Heap.Node.Hash, Heap.newNode, Heap.hashPair, Heap.goAppend,
      Heap.read, Heap.write]
  · simp [Heap.Node.value, leafHashes, Node.isNil, Heap.read]
  · simp [Heap.read]
  · simp [Heap.CreateMerkleProof, Heap.findHash, Heap.Node.isNil, Heap.read]

/-- C19 as stated fails: with six leaf hashes `1` ... `6`, slices without spare
capacity of one array, the three nodes of the second level are padded with a
copy of the third one, so, whatever the digest, the leaves of the tree hold
`1, 2, 3, 4, 5, 6, 5, 6`: position 6, past the input, holds `5`, not the last
element `6` of the input. -/
theorem six_leaves_padded_with_block :
    [Heap.Slice.mk 0 0 1 1, Heap.Slice.mk 0 1 1 1, Heap.Slice.mk 0 2 1 1,
        Heap.Slice.mk 0 3 1 1, Heap.Slice.mk 0 4 1 1, Heap.Slice.mk 0 5 1 1].map
        (Heap.read [[1, 2, 3, 4, 5, 6]]) = [[1], [2], [3], [4], [5], [6]] ∧
    ∀ Sum256 : Bytes → Bytes, ∃ root m1,
      Heap.BuildTree Sum256 [[1, 2, 3, 4, 5, 6]]
          [Heap.Slice.mk 0 0 1 1, Heap.Slice.mk 0 1 1 1, Heap.Slice.mk 0 2 1 1,
            Heap.Slice.mk 0 3 1 1, Heap.Slice.mk 0 4 1 1, Heap.Slice.mk 0 5 1 1] =
        .ok (root, m1) ∧
      leafHashes (root.value m1) = [[1], [2], [3], [4], [5], [6], [5], [6]] ∧
      (leafHashes (root.value m1))[6]? = some [5] ∧
      ([5] : Bytes) ≠ [6] := by
  refine ⟨by decide, ?_⟩
  intro Sum256
  obtain ⟨root, grown, hheap, hvalue⟩ := BuildTree_tight_heap Sum256 [[1, 2, 3, 4, 5, 6]]
    [Heap.Slice.mk 0 0 1 1, Heap.Slice.mk 0 1 1 1, Heap.Slice.mk 0 2 1 1,
      Heap.Slice.mk 0 3 1 1, Heap.Slice.mk 0 4 1 1, Heap.Slice.mk 0 5 1 1]
    (by decide) (by simp [Heap.Slice.tight])
  have hleaves := buildTree_leaves_eq Sum256 _ _ hvalue
  have hpad : paddedLeaves ([Heap.Slice.mk 0 0 1 1, Heap.Slice.mk 0 1 1 1,
      Heap.Slice.mk 0 2 1 1, Heap.Slice.mk 0 3 1 1, Heap.Slice.mk 0 4 1 1,
      Heap.Slice.mk 0 5 1 1].map (Heap.read [[1, 2, 3, 4, 5, 6]])) =
      [[1], [2], [3], [4], [5], [6], [5], [6]] := by decide
  rw [hpad] at hleaves
  refine ⟨root, _, hheap, hleaves, ?_, by decide⟩
  rw [hleaves]
  rfl

/-- C19, amended: for every non-empty input of `n` leaf hashes that are slices
without spare capacity, `BuildTree` returns a tree whose leaves, read left to
right after the call, hold the hashes of the input followed by further
hashes, `2 ^ ceil (log2 n)` in all; the sequence is the one the duplication
rule makes, `paddedLeaves`: level by level, a sequence of an odd number of
blocks gets its last block appended once more.  Every further hash is a copy
of an element of the input. -/
theorem buildTree_leaf_sequence_tight (Sum256 : Bytes → Bytes) (m : Heap.Memory)
    (hashes : List Heap.Slice) (hne : hashes ≠ [])
    (htight : ∀ s ∈ hashes, s.tight m) :
    ∃ root m1 extra, Heap.BuildTree Sum256 m hashes = .ok (root, m1) ∧
      leafHashes (root.value m1) = hashes.map (Heap.read m) ++ extra ∧
      (leafHashes (root.value m1)).length = 2 ^ Nat.clog 2 hashes.length ∧
      leafHashes (root.value m1) = paddedLeaves (hashes.map (Heap.read m)) ∧
      ∀ y ∈ extra, y ∈ hashes.map (Heap.read m) := by
  obtain ⟨root, grown, hheap, hvalue⟩ := BuildTree_tight_heap Sum256 m hashes hne htight
  have hne2 : hashes.map (Heap.read m) ≠ [] := by simpa using hne
  obtain ⟨root2, extra, hroot2, hleaves, hlen, hextra⟩ :=
    buildTree_leaf_sequence Sum256 (hashes.map (Heap.read m)) hne2
  rw [hvalue] at hroot2
  cases hroot2
  refine ⟨root, m ++ grown, extra, hheap, hleaves, ?_, ?_, hextra⟩
  · simpa using hlen
  · exact buildTree_leaves_eq Sum256 _ _ hvalue

/-- The amended C19 on five leaf hashes `1` ... `5`, each in an array of its
own. -/
theorem buildTree_leaf_sequence_tight_witness :
    ([Heap.Slice.mk 0 0 1 1, Heap.Slice.mk 1 0 1 1, Heap.Slice.mk 2 0 1 1,
        Heap.Slice.mk 3 0 1 1, Heap.Slice.mk 4 0 1 1] ≠ []) ∧
    (∀ s ∈ [Heap.Slice.mk 0 0 1 1, Heap.Slice.mk 1 0 1 1, Heap.Slice.mk 2 0 1 1,
        Heap.Slice.mk 3 0 1 1, Heap.Slice.mk 4 0 1 1],
      s.tight [[1], [2], [3], [4], [5]]) ∧
    ∃ root m1 extra,
      Heap.BuildTree sampleDigest [[1], [2], [3], [4], [5]]
          [Heap.Slice.mk 0 0 1 1, Heap.Slice.mk 1 0 1 1, Heap.Slice.mk 2 0 1 1,
            Heap.Slice.mk 3 0 1 1, Heap.Slice.mk 4 0 1 1] = .ok (root, m1) ∧
      leafHashes (root.value m1) =
        [Heap.Slice.mk 0 0 1 1, Heap.Slice.mk 1 0 1 1, Heap.Slice.mk 2 0 1 1,
          Heap.Slice.mk 3 0 1 1, Heap.Slice.mk 4 0 1 1].map
          (Heap.read [[1], [2], [3], [4], [5]]) ++ extra ∧
      (leafHashes (root.value m1)).length =
        2 ^ Nat.clog 2 [Heap.Slice.mk 0 0 1 1, Heap.Slice.mk 1 0 1 1,
          Heap.Slice.mk 2 0 1 1, Heap.Slice.mk 3 0 1 1, Heap.Slice.mk 4 0 1 1].length ∧
      leafHashes (root.value m1) =
        paddedLeaves ([Heap.Slice.mk 0 0 1 1, Heap.Slice.mk 1 0 1 1,
          Heap.Slice.mk 2 0 1 1, Heap.Slice.mk 3 0 1 1, Heap.Slice.mk 4 0 1 1].map
          (Heap.read [[1], [2], [3], [4], [5]])) ∧
      ∀ y ∈ extra,
        y ∈ [Heap.Slice.mk 0 0 1 1, Heap.Slice.mk 1 0 1 1, Heap.Slice.mk 2 0 1 1,
          Heap.Slice.mk 3 0 1 1, Heap.Slice.mk 4 0 1 1].map
          (Heap.read [[1], [2], [3], [4], [5]]) :=
  ⟨by decide, by simp [Heap.Slice.tight],
    buildTree_leaf_sequence_tight sampleDigest [[1], [2], [3], [4], [5]]
      [Heap.Slice.mk 0 0 1 1, Heap.Slice.mk 1 0 1 1, Heap.Slice.mk 2 0 1 1,
        Heap.Slice.mk 3 0 1 1, Heap.Slice.mk 4 0 1 1]
      (by decide) (by simp [Heap.Slice.tight])⟩

/-- C14 as stated fails: for an id that no entry of the registry has, `GetTree`
returns the nil pointer, Go's null value, which is `none` here; it has no
second result and no value that says not found. -/
theorem getTree_missing_is_nil :
    (∀ u ∈ [MerkleTree.mk 3 (Node.mk [1] Node.nil Node.nil)], u.ID ≠ 7) ∧
    GetTree [MerkleTree.mk 3 (Node.mk [1] Node.nil Node.nil)] 7 = none := by
  decide

end Merkletree
